import Mathlib

/-!
Verification development for the llmf repository: a shallow embedding of the
text-completions template engine (`llmf/mappings/completions/base.py`), the
schematized corpus operations (`llmf/corpora/schematized.py`), and the
ChatGPT-backed mapping (`llmf/mappings/completions/openai/gpt.py`).

Python strings are modelled as `List Char`.  Python dictionaries are modelled
as association lists together with `dlookup` / `dset`, which mirror Python
dict lookup and `d[k] = v` assignment (overwrite keeps the insertion
position, a fresh key is appended).  File I/O is abstracted: loaders take the
file contents as arguments.  The external completion collaborator is
abstracted as a function from the rendered user message to the completion
text, as the spec directs ("treated as an opaque function").
-/

deriving instance DecidableEq for Except

/-- Python strings are modelled as lists of characters. -/
abbrev Str := List Char

/-- The opening brace character, written numerically. -/
def lb : Char := Char.ofNat 123

/-- The closing brace character, written numerically. -/
def rb : Char := Char.ofNat 125

/-- Is the character one of the two brace characters? -/
def isBrace (c : Char) : Bool := c = lb || c = rb

/-- A string with no brace characters. -/
def braceFree (s : Str) : Bool := s.all (fun c => !(isBrace c))

/-- Python dict lookup: first entry with the given key. -/
def dlookup {α β : Type} [DecidableEq α] : List (α × β) → α → Option β
  | [], _ => none
  | (k, v) :: rest, a => if k = a then some v else dlookup rest a

/-- Python `k in d`. -/
def dcontains {α β : Type} [DecidableEq α] (d : List (α × β)) (a : α) : Bool :=
  (dlookup d a).isSome

/-- Python `d[k] = v`: overwrite in place if the key exists, else append. -/
def dset {α β : Type} [DecidableEq α] (d : List (α × β)) (a : α) (b : β) : List (α × β) :=
  if dcontains d a then d.map (fun p => if p.1 = a then (a, b) else p) else d ++ [(a, b)]

/-- Value of a key known to be present (junk default otherwise). -/
def getV {β : Type} [Inhabited β] (d : List (Str × β)) (k : Str) : β :=
  (dlookup d k).getD default

/-- Strip characters satisfying `p` from both ends (Python `str.strip(chars)`). -/
def stripChars (p : Char → Bool) (s : Str) : Str :=
  ((s.dropWhile p).reverse.dropWhile p).reverse

/-- Python `str.strip()` (whitespace from both ends). -/
def pyStrip (s : Str) : Str := stripChars Char.isWhitespace s

/-- Python `str.strip(braces)` as used on placeholder tokens. -/
def stripBraces (s : Str) : Str := stripChars isBrace s

/-- Split a string at the first occurrence of character `c`: returns the part
before and the part after, or `none` when `c` does not occur. -/
def splitAtFirst (c : Char) : Str → Option (Str × Str)
  | [] => none
  | d :: rest =>
    if d = c then some ([], rest)
    else (splitAtFirst c rest).map (fun p => (d :: p.1, p.2))

theorem splitAtFirst_eq_some {c : Char} :
    ∀ {s pre post : Str}, splitAtFirst c s = some (pre, post) →
      s = pre ++ c :: post ∧ c ∉ pre := by
  intro s
  induction s with
  | nil => intro pre post h; simp [splitAtFirst] at h
  | cons d rest ih =>
    intro pre post h
    by_cases hd : d = c
    · simp only [splitAtFirst, if_pos hd, Option.some.injEq, Prod.mk.injEq] at h
      obtain ⟨h1, h2⟩ := h
      subst h1
      subst h2
      simp [hd]
    · simp only [splitAtFirst, if_neg hd, Option.map_eq_some'] at h
      obtain ⟨⟨a, b⟩, hp, hq⟩ := h
      obtain ⟨hs, hc⟩ := ih hp
      simp only [Prod.mk.injEq] at hq
      obtain ⟨h1, h2⟩ := hq
      subst h1
      subst h2
      subst hs
      constructor
      · simp
      · simp only [List.mem_cons]
        push_neg
        exact ⟨fun he => hd he.symm, hc⟩

theorem splitAtFirst_length {c : Char} {s pre post : Str}
    (h : splitAtFirst c s = some (pre, post)) : post.length < s.length := by
  have := (splitAtFirst_eq_some h).1
  subst this
  simp
  omega

/-- First occurrence of `c` inside `pre ++ c :: post` when `c` is not in `pre`. -/
theorem splitAtFirst_append {c : Char} {pre post : Str} (h : c ∉ pre) :
    splitAtFirst c (pre ++ c :: post) = some (pre, post) := by
  induction pre with
  | nil => simp [splitAtFirst]
  | cons d rest ih =>
    simp only [List.mem_cons] at h
    push_neg at h
    have hd : ¬ d = c := fun hdc => h.1 hdc.symm
    simp [splitAtFirst, hd, ih h.2]

/-- The scan of Python `str.replace`, with an explicit fuel argument (one
unit per consumed character) so that the recursion is structural and the
kernel can evaluate it.  `replaceAll` supplies fuel equal to the text
length, which the scan never exhausts. -/
def replaceAllFuel (pat rep : Str) : Nat → Str → Str
  | _, [] => []
  | 0, s => s
  | fuel + 1, c :: rest =>
    if pat.isPrefixOf (c :: rest) then
      rep ++ replaceAllFuel pat rep fuel (rest.drop (pat.length - 1))
    else c :: replaceAllFuel pat rep fuel rest

/-- Python `str.replace(pat, rep)`: replace every occurrence left to right,
not rescanning the replacement.  In this development the pattern is always a
braced key, hence nonempty. -/
def replaceAll (pat rep : Str) (s : Str) : Str := replaceAllFuel pat rep s.length s

theorem replaceAllFuel_congr (pat rep : Str) :
    ∀ (f1 f2 : Nat) (s : Str), s.length ≤ f1 → s.length ≤ f2 →
      replaceAllFuel pat rep f1 s = replaceAllFuel pat rep f2 s := by
  intro f1
  induction f1 with
  | zero =>
    intro f2 s h1 _
    have hs : s = [] := by
      cases s with
      | nil => rfl
      | cons c r => simp at h1
    subst hs
    cases f2 <;> rfl
  | succ f1p ih =>
    intro f2 s h1 h2
    cases s with
    | nil => cases f2 <;> rfl
    | cons c rest =>
      cases f2 with
      | zero => simp at h2
      | succ f2p =>
        simp only [List.length_cons] at h1 h2
        simp only [replaceAllFuel]
        have hd : (rest.drop (pat.length - 1)).length ≤ rest.length := by
          simp [List.length_drop]
        by_cases hp : pat.isPrefixOf (c :: rest) = true
        · rw [if_pos hp, if_pos hp,
            ih f2p (rest.drop (pat.length - 1)) (by omega) (by omega)]
        · rw [if_neg hp, if_neg hp, ih f2p rest (by omega) (by omega)]

theorem replaceAll_nil (pat rep : Str) : replaceAll pat rep [] = [] := rfl

theorem replaceAll_unfold (pat rep : Str) (c : Char) (rest : Str) :
    replaceAll pat rep (c :: rest) =
      if pat.isPrefixOf (c :: rest) then
        rep ++ replaceAll pat rep (rest.drop (pat.length - 1))
      else c :: replaceAll pat rep rest := by
  show replaceAllFuel pat rep (rest.length + 1) (c :: rest) = _
  simp only [replaceAllFuel]
  have hd : (rest.drop (pat.length - 1)).length ≤ rest.length := by
    simp [List.length_drop]
  by_cases hp : pat.isPrefixOf (c :: rest) = true
  · rw [if_pos hp, if_pos hp,
      replaceAllFuel_congr pat rep rest.length (rest.drop (pat.length - 1)).length
        (rest.drop (pat.length - 1)) hd (le_refl _)]
    rfl
  · rw [if_neg hp, if_neg hp]
    rfl

/-- Index of the first occurrence of `pat` (Python `text.index(pat)` /
`pat in text`). -/
def findSubstr (pat : Str) : Str → Option Nat
  | [] => if pat.isPrefixOf ([] : Str) then some 0 else none
  | c :: rest =>
    if pat.isPrefixOf (c :: rest) then some 0
    else (findSubstr pat rest).map (· + 1)

/-- First-occurrence-order deduplication, as the Python loop over
`template_keys` with a seen-set and an output list. -/
def uniqueKeysAux : List Str → List Str → List Str
  | acc, [] => acc
  | acc, k :: rest =>
    if k ∈ acc then uniqueKeysAux acc rest else uniqueKeysAux (acc ++ [k]) rest

/-- `TextCompletionsMappingTemplatePart`: either a key like the braced form,
or plaintext (`key = none`). -/
structure TextCompletionsMappingTemplatePart where
  raw : Str
  key : Option Str
deriving DecidableEq

/-- `TextCompletionsMappingTemplate`: raw text, parts, deduplicated keys. -/
structure TextCompletionsMappingTemplate where
  raw : Str
  parts : List TextCompletionsMappingTemplatePart
  keys : List Str
deriving DecidableEq

theorem dropWhileLenLe (p : Char → Bool) : ∀ s : Str, (s.dropWhile p).length ≤ s.length := by
  intro s
  induction s with
  | nil => simp [List.dropWhile]
  | cons c rest ih =>
    rw [List.dropWhile]
    by_cases h : p c
    · simp only [h, if_true, List.length_cons]
      omega
    · simp [h]

/-- The tokenizer scan with an explicit fuel argument (one unit per step,
each step consuming at least one character), so that the recursion is
structural and the kernel can evaluate it. -/
def tokenizeFuel : Nat → Str → List TextCompletionsMappingTemplatePart
  | _, [] => []
  | 0, _ => []
  | fuel + 1, c :: rest =>
    if c = lb then
      match splitAtFirst rb rest with
      | some (before, after) =>
        ⟨lb :: before ++ [rb], some (stripBraces (lb :: before ++ [rb]))⟩ ::
          tokenizeFuel fuel after
      | none => tokenizeFuel fuel rest
    else if c = rb then
      tokenizeFuel fuel rest
    else
      ⟨c :: rest.takeWhile (fun d => !(isBrace d)), none⟩ ::
        tokenizeFuel fuel (rest.dropWhile (fun d => !(isBrace d)))

/-- The tokenizer of `_parse_template_into_parts`: the regex alternation of a
braced placeholder (up to the first closing brace) and a maximal nonempty run
of non-brace text; characters that match neither (stray braces) are skipped,
as `re.finditer` does. -/
def tokenize (s : Str) : List TextCompletionsMappingTemplatePart :=
  tokenizeFuel s.length s

theorem tokenizeFuel_congr :
    ∀ (f1 f2 : Nat) (s : Str), s.length ≤ f1 → s.length ≤ f2 →
      tokenizeFuel f1 s = tokenizeFuel f2 s := by
  intro f1
  induction f1 with
  | zero =>
    intro f2 s h1 _
    have hs : s = [] := by
      cases s with
      | nil => rfl
      | cons c r => simp at h1
    subst hs
    cases f2 <;> rfl
  | succ f1p ih =>
    intro f2 s h1 h2
    cases s with
    | nil => cases f2 <;> rfl
    | cons c rest =>
      cases f2 with
      | zero => simp at h2
      | succ f2p =>
        simp only [List.length_cons] at h1 h2
        simp only [tokenizeFuel]
        by_cases hc1 : c = lb
        · rw [if_pos hc1, if_pos hc1]
          cases hsp : splitAtFirst rb rest with
          | some pr =>
            obtain ⟨before, after⟩ := pr
            have := splitAtFirst_length hsp
            dsimp only
            rw [ih f2p after (by omega) (by omega)]
          | none =>
            dsimp only
            rw [ih f2p rest (by omega) (by omega)]
        · rw [if_neg hc1, if_neg hc1]
          by_cases hc2 : c = rb
          · rw [if_pos hc2, if_pos hc2, ih f2p rest (by omega) (by omega)]
          · have hdw := dropWhileLenLe (fun d => !(isBrace d)) rest
            rw [if_neg hc2, if_neg hc2,
              ih f2p (rest.dropWhile (fun d => !(isBrace d))) (by omega) (by omega)]

theorem tokenize_nil : tokenize [] = [] := rfl

theorem tokenize_unfold (c : Char) (rest : Str) :
    tokenize (c :: rest) =
      (if c = lb then
        match splitAtFirst rb rest with
        | some (before, after) =>
          ⟨lb :: before ++ [rb], some (stripBraces (lb :: before ++ [rb]))⟩ ::
            tokenize after
        | none => tokenize rest
      else if c = rb then
        tokenize rest
      else
        ⟨c :: rest.takeWhile (fun d => !(isBrace d)), none⟩ ::
          tokenize (rest.dropWhile (fun d => !(isBrace d)))) := by
  show tokenizeFuel (rest.length + 1) (c :: rest) = _
  simp only [tokenizeFuel]
  by_cases hc1 : c = lb
  · rw [if_pos hc1, if_pos hc1]
    cases hsp : splitAtFirst rb rest with
    | some pr =>
      obtain ⟨before, after⟩ := pr
      have := splitAtFirst_length hsp
      dsimp only
      rw [tokenizeFuel_congr rest.length after.length after (by omega) (le_refl _)]
      rfl
    | none => rfl
  · rw [if_neg hc1, if_neg hc1]
    by_cases hc2 : c = rb
    · rw [if_pos hc2, if_pos hc2]
      rfl
    · have hdw := dropWhileLenLe (fun d => !(isBrace d)) rest
      rw [if_neg hc2, if_neg hc2,
        tokenizeFuel_congr rest.length (rest.dropWhile (fun d => !(isBrace d))).length
          (rest.dropWhile (fun d => !(isBrace d))) (by omega) (le_refl _)]
      rfl

/-- The findall scan with an explicit fuel argument, structural for kernel
evaluation. -/
def findTemplateKeysFuel : Nat → Str → List Str
  | _, [] => []
  | 0, _ => []
  | fuel + 1, c :: rest =>
    if c = lb then
      match splitAtFirst rb rest with
      | some (before, after) => before :: findTemplateKeysFuel fuel after
      | none => findTemplateKeysFuel fuel rest
    else findTemplateKeysFuel fuel rest

/-- The captures of `re.findall` with the placeholder regex: the text between
an opening brace and the first following closing brace, scanning left to
right without overlap. -/
def findTemplateKeys (s : Str) : List Str := findTemplateKeysFuel s.length s

theorem findTemplateKeysFuel_congr :
    ∀ (f1 f2 : Nat) (s : Str), s.length ≤ f1 → s.length ≤ f2 →
      findTemplateKeysFuel f1 s = findTemplateKeysFuel f2 s := by
  intro f1
  induction f1 with
  | zero =>
    intro f2 s h1 _
    have hs : s = [] := by
      cases s with
      | nil => rfl
      | cons c r => simp at h1
    subst hs
    cases f2 <;> rfl
  | succ f1p ih =>
    intro f2 s h1 h2
    cases s with
    | nil => cases f2 <;> rfl
    | cons c rest =>
      cases f2 with
      | zero => simp at h2
      | succ f2p =>
        simp only [List.length_cons] at h1 h2
        simp only [findTemplateKeysFuel]
        by_cases hc1 : c = lb
        · rw [if_pos hc1, if_pos hc1]
          cases hsp : splitAtFirst rb rest with
          | some pr =>
            obtain ⟨before, after⟩ := pr
            have := splitAtFirst_length hsp
            dsimp only
            rw [ih f2p after (by omega) (by omega)]
          | none =>
            dsimp only
            rw [ih f2p rest (by omega) (by omega)]
        · rw [if_neg hc1, if_neg hc1, ih f2p rest (by omega) (by omega)]

theorem findTemplateKeys_nil : findTemplateKeys [] = [] := rfl

theorem findTemplateKeys_unfold (c : Char) (rest : Str) :
    findTemplateKeys (c :: rest) =
      (if c = lb then
        match splitAtFirst rb rest with
        | some (before, after) => before :: findTemplateKeys after
        | none => findTemplateKeys rest
      else findTemplateKeys rest) := by
  show findTemplateKeysFuel (rest.length + 1) (c :: rest) = _
  simp only [findTemplateKeysFuel]
  by_cases hc1 : c = lb
  · rw [if_pos hc1, if_pos hc1]
    cases hsp : splitAtFirst rb rest with
    | some pr =>
      obtain ⟨before, after⟩ := pr
      have := splitAtFirst_length hsp
      dsimp only
      rw [findTemplateKeysFuel_congr rest.length after.length after (by omega) (le_refl _)]
      rfl
    | none => rfl
  · rw [if_neg hc1, if_neg hc1]
    rfl

/-- `_parse_template_keys`: captures in order, each kept at first occurrence. -/
def parse_template_keys (raw : Str) : List Str :=
  uniqueKeysAux [] (findTemplateKeys raw)

/-- Do two adjacent parts ever share the same is-placeholder classification?
`_parse_template_into_parts` raises as soon as this happens. -/
def alternatesOK : List TextCompletionsMappingTemplatePart → Bool
  | p :: q :: rest => (!(p.key.isNone == q.key.isNone)) && alternatesOK (q :: rest)
  | _ => true

/-- `_parse_template_into_parts`: tokenize, failing on adjacent same-kind
parts or on an empty part list. -/
def parse_template_into_parts (raw : Str) : Except Str (List TextCompletionsMappingTemplatePart) :=
  let ps := tokenize raw
  if alternatesOK ps then
    if ps.isEmpty then Except.error ("Template cannot be empty.".toList)
    else Except.ok ps
  else Except.error ("Keys and non-keys must alternate within a template.".toList)

/-- `TextCompletionsMappingTemplate.load`: trim, tokenize, extract keys. -/
def TextCompletionsMappingTemplate.load (raw : Str) :
    Except Str TextCompletionsMappingTemplate :=
  let r := pyStrip raw
  match parse_template_into_parts r with
  | Except.error e => Except.error e
  | Except.ok ps => Except.ok ⟨r, ps, parse_template_keys r⟩

/-- The braced form of a key. -/
def brack (k : Str) : Str := lb :: k ++ [rb]

/-- Error text of `fill` for a missing key (quoting simplified; it names the
absent key and the raw template, as the Python f-string does). -/
def msgMissingKey (k raw : Str) : Str :=
  "Key ".toList ++ k ++ " missing from dictionary for template ".toList ++ raw

/-- The loop body of `fill`: for each key in order, require an entry and
replace every occurrence of the braced key. -/
def fillLoop (raw : Str) (values : List (Str × Str)) : Str → List Str → Except Str Str
  | filled, [] => Except.ok filled
  | filled, k :: rest =>
    if dcontains values k then
      fillLoop raw values (replaceAll (brack k) (getV values k) filled) rest
    else Except.error (msgMissingKey k raw)

/-- `TextCompletionsMappingTemplate.fill`. -/
def TextCompletionsMappingTemplate.fill (t : TextCompletionsMappingTemplate)
    (values : List (Str × Str)) : Except Str Str :=
  fillLoop t.raw values t.raw t.keys

/-- The dictionary built by `parse`; Python would even accept `None` as a key
(when `parse` is run on a non-alternating part list), so keys are optional
strings. -/
abbrev PDict := List (Option Str × Str)

/-- Error text of `parse` when the leading literal is absent. -/
def msgExpectedStart (litraw text : Str) : Str :=
  "Expected ".toList ++ litraw ++ " at start of text ".toList ++ text

/-- Error text of `parse` when a following literal is absent. -/
def msgExpectedIn (litraw cur : Str) : Str :=
  "Expected ".toList ++ litraw ++ " in text ".toList ++ cur

/-- Error text standing for the IndexError `parse` hits on a zero-part
template (never produced by `load`). -/
def msgIndexError : Str := "tuple index out of range".toList

/-- The while loop of `parse`, walking placeholder/literal pairs: the last
placeholder takes all remaining text; otherwise the next literal must occur
and the placeholder takes the text before its first occurrence. -/
def parseLoop : List TextCompletionsMappingTemplatePart → Str → PDict → Except Str PDict
  | [], _, d => Except.ok d
  | [p], cur, d => Except.ok (dset d p.key cur)
  | p :: q :: rest, cur, d =>
    match findSubstr q.raw cur with
    | none => Except.error (msgExpectedIn q.raw cur)
    | some i => parseLoop rest (cur.drop (i + q.raw.length)) (dset d p.key (cur.take i))

/-- `TextCompletionsMappingTemplate.parse`.  Note the faithful quirk: the
input is trimmed into `cur`, but the leading-literal check is made against
the original untrimmed `text` (`text.startswith` in the source), while the
literal is then consumed from the trimmed `cur`. -/
def TextCompletionsMappingTemplate.parse (t : TextCompletionsMappingTemplate)
    (text : Str) : Except Str PDict :=
  match t.parts with
  | [] => Except.error msgIndexError
  | p :: restParts =>
    let cur := pyStrip text
    if p.key.isNone then
      if p.raw.isPrefixOf text then parseLoop restParts (cur.drop p.raw.length) []
      else Except.error (msgExpectedStart p.raw text)
    else parseLoop (p :: restParts) cur []

/-- A corpus record (`SchematizedTextCorpusExample`): a Python dict from
field name to string.  Keys are optional strings because the `parse`
dictionary (which records are built from in `map_corpus`) can in principle
carry a `None` key. -/
abbrev Record := List (Option Str × Str)

/-- `SchematizedTextCorpusExample.__add__`: `dict(self, **other)`.  The right
operand's entries are written over the left's, one by one. -/
def exampleAdd (a b : Record) : Record :=
  b.foldl (fun acc kv => dset acc kv.1 kv.2) a

/-- `SchematizedTextCorpus`: an ordered field schema and ordered records. -/
structure SchematizedTextCorpus where
  fields : List Str
  examples : List Record
deriving DecidableEq

/-- Error text of `join` on overlapping field sets. -/
def msgJoinConflict : Str := "Cannot join corpora that have fields in common.".toList

/-- Error text of `join` on differing row counts. -/
def msgJoinRows : Str := "Joined corpora must contain the same number of rows.".toList

/-- `SchematizedTextCorpus.join`: requires disjoint field sets (checked via
the set intersection being nonempty) and equal record counts, then pairs the
rows positionally and concatenates them. -/
def SchematizedTextCorpus.join (c1 c2 : SchematizedTextCorpus) :
    Except Str SchematizedTextCorpus :=
  if c1.fields.any (fun f => f ∈ c2.fields) then Except.error msgJoinConflict
  else if c1.examples.length ≠ c2.examples.length then Except.error msgJoinRows
  else Except.ok
    ⟨c1.fields ++ c2.fields,
      (List.zip c1.examples c2.examples).map (fun p => exampleAdd p.1 p.2)⟩

/-- `TextMappingExample`: worked example inputs and outputs. -/
structure TextMappingExample where
  inputs : List (Str × Str)
  outputs : List (Str × Str)
deriving DecidableEq

/-- `TextCompletionsMappingDefinition`.  The directory path is abstracted
away (file I/O is out of the embedding), so `source_dir_path` is `none`. -/
structure TextCompletionsMappingDefinition where
  guidelines : Str
  input_template : TextCompletionsMappingTemplate
  output_template : TextCompletionsMappingTemplate
  examples : List TextMappingExample
  source_dir_path : Option Str
deriving DecidableEq

/-- Error text of the input/output key-overlap validation. -/
def msgOverlap : Str := "Template key occurs in both input and output templates".toList

/-- Error text standing for the KeyError raised when an example record lacks
a template key. -/
def msgKeyError (k : Str) : Str := "KeyError ".toList ++ k

/-- The size of `set(a) & set(b)` for two Python lists. -/
def setInterCount (a b : List Str) : Nat :=
  (uniqueKeysAux [] (a.filter (fun k => k ∈ b))).length

/-- `{key: example[key] for key in ks}` over a corpus record keyed by plain
strings; Python raises `KeyError` when a key is absent. -/
def recordProject (rec : Record) : List Str → Except Str (List (Str × Str))
  | [] => Except.ok []
  | k :: rest =>
    match dlookup rec (some k) with
    | none => Except.error (msgKeyError k)
    | some v =>
      match recordProject rec rest with
      | Except.error e => Except.error e
      | Except.ok d => Except.ok ((k, v) :: d)

/-- `TextCompletionsMappingDefinition._load_examples_from_file`, abstracted
over the already-read corpus records. -/
def load_examples (corpus : List Record) (input_keys output_keys : List Str) :
    Except Str (List TextMappingExample) :=
  match corpus with
  | [] => Except.ok []
  | rec :: rest =>
    match recordProject rec input_keys with
    | Except.error e => Except.error e
    | Except.ok ins =>
      match recordProject rec output_keys with
      | Except.error e => Except.error e
      | Except.ok outs =>
        match load_examples rest input_keys output_keys with
        | Except.error e => Except.error e
        | Except.ok exs => Except.ok (⟨ins, outs⟩ :: exs)

/-- `TextCompletionsMappingDefinition.load_from_directory`, abstracted over
the contents of the guidelines, input-template and output-template files and
over the already-read examples corpus: load both templates, validate the key
overlap, then build the worked examples. -/
def TextCompletionsMappingDefinition.load_from_directory
    (guidelines_text input_template_text output_template_text : Str)
    (examples_corpus : List Record) : Except Str TextCompletionsMappingDefinition :=
  match TextCompletionsMappingTemplate.load input_template_text with
  | Except.error e => Except.error e
  | Except.ok input_template =>
    match TextCompletionsMappingTemplate.load output_template_text with
    | Except.error e => Except.error e
    | Except.ok output_template =>
      if setInterCount input_template.keys output_template.keys > 1 then
        Except.error msgOverlap
      else
        match load_examples examples_corpus input_template.keys output_template.keys with
        | Except.error e => Except.error e
        | Except.ok exs =>
          Except.ok ⟨pyStrip guidelines_text, input_template, output_template, exs, none⟩

/-- `TextCompletionsMappingOutput`. -/
structure TextCompletionsMappingOutput where
  raw : Str
  parsed : PDict
  success : Bool
  error_message : Option Str
deriving DecidableEq

/-- `ChatGPTTextCompletionsMapping.map`, with the completion collaborator
abstracted as a function from the rendered user message to the completion
text (the prompt prefix is fixed at construction, so the completion is a
function of the final user turn).  The `try` block wraps only the parse:
fill errors propagate, a parse error is absorbed into a failed outcome only
when a non-`None` default is supplied, and otherwise re-raised. -/
def ChatGPTTextCompletionsMapping.map
    (defn : TextCompletionsMappingDefinition) (gpt_run : Str → Str)
    (input : List (Str × Str)) (parse_error_default : Option Str) :
    Except Str TextCompletionsMappingOutput :=
  match defn.input_template.fill input with
  | Except.error e => Except.error e
  | Except.ok user_input_prompt_message =>
    let completion := gpt_run user_input_prompt_message
    match defn.output_template.parse completion with
    | Except.ok parsed => Except.ok ⟨completion, parsed, true, none⟩
    | Except.error err =>
      match parse_error_default with
      | none => Except.error err
      | some dflt =>
        Except.ok ⟨completion,
          defn.output_template.keys.foldl (fun d k => dset d (some k) dflt) [],
          false, some err⟩

/-- `TextCompletionsMapping.map_batch`: apply `map` to each input in order;
the first unrecovered failure aborts the batch. -/
def TextCompletionsMapping.map_batch
    (defn : TextCompletionsMappingDefinition) (gpt_run : Str → Str)
    (inputs : List (List (Str × Str))) (parse_error_default : Option Str) :
    Except Str (List TextCompletionsMappingOutput) :=
  match inputs with
  | [] => Except.ok []
  | i :: rest =>
    match ChatGPTTextCompletionsMapping.map defn gpt_run i parse_error_default with
    | Except.error e => Except.error e
    | Except.ok o =>
      match TextCompletionsMapping.map_batch defn gpt_run rest parse_error_default with
      | Except.error e => Except.error e
      | Except.ok os => Except.ok (o :: os)

/-- Python `str(bool)`. -/
def pyStrBool (b : Bool) : Str := if b then "True".toList else "False".toList

/-- Python `str` applied to an optional string: `str(None)` is the
four-character text `None`; a present string is returned unchanged. -/
def pyStrOptStr : Option Str → Str
  | none => "None".toList
  | some s => s

/-- A corpus record viewed through plain string keys, as `map_corpus` builds
its input rows: the record carries every field of the corpus row. -/
def recordOfFields (row : List (Str × Str)) : Record :=
  row.map (fun p => (some p.1, p.2))

/-- The debug dict literal of `map_corpus` (Python dict-literal semantics:
a repeated key keeps the later value). -/
def debugRecord (success_field error_message_field raw_completion_field : Str)
    (o : TextCompletionsMappingOutput) : Record :=
  dset (dset (dset [] (some success_field) (pyStrBool o.success))
      (some error_message_field) (pyStrOptStr o.error_message))
    (some raw_completion_field) o.raw

/-- Error text of the debug-field collision check. -/
def msgDebugCollision : Str :=
  "Cannot map corpus because debug field included in input and output fields.".toList

/-- `TextCompletionsMapping.map_corpus`: validate the debug fields against
both templates, run the batch, assemble the output corpus (optionally with
the three stringified debug fields), and optionally join the input corpus
back on.  Corpus rows are passed to `map` as plain string-keyed dicts. -/
def TextCompletionsMapping.map_corpus
    (defn : TextCompletionsMappingDefinition) (gpt_run : Str → Str)
    (corpus_fields : List Str) (corpus_rows : List (List (Str × Str)))
    (parse_error_default : Option Str)
    (include_inputs_in_output include_debug_fields : Bool)
    (error_message_field success_field raw_completion_field : Str) :
    Except Str SchematizedTextCorpus :=
  let extra_fields := [error_message_field, success_field, raw_completion_field]
  if include_debug_fields &&
      (extra_fields.any (fun f => f ∈ defn.input_template.keys) ||
        extra_fields.any (fun f => f ∈ defn.output_template.keys)) then
    Except.error msgDebugCollision
  else
    match TextCompletionsMapping.map_batch defn gpt_run corpus_rows parse_error_default with
    | Except.error e => Except.error e
    | Except.ok outs =>
      let output_corpus : SchematizedTextCorpus :=
        ⟨if include_debug_fields then
            defn.output_template.keys ++ [success_field, error_message_field, raw_completion_field]
          else defn.output_template.keys,
          outs.map (fun o =>
            if include_debug_fields then
              exampleAdd o.parsed
                (debugRecord success_field error_message_field raw_completion_field o)
            else o.parsed)⟩
      if include_inputs_in_output then
        SchematizedTextCorpus.join ⟨corpus_fields, corpus_rows.map recordOfFields⟩ output_corpus
      else Except.ok output_corpus

/-- Concatenation of the raw forms of a part list. -/
def concatRaw (ps : List TextCompletionsMappingTemplatePart) : Str :=
  ps.flatMap (fun p => p.raw)

/-- The placeholder names of a part list, in occurrence order. -/
def placeholderNames (ps : List TextCompletionsMappingTemplatePart) : List Str :=
  ps.filterMap (fun p => p.key)

/-- A part in canonical shape: a literal is nonempty and brace-free; a
placeholder's raw form is its key between one opening and one closing brace,
the key itself brace-free.  Every part the tokenizer produces on a template
without braces inside placeholder interiors has this shape. -/
def cleanPart (p : TextCompletionsMappingTemplatePart) : Bool :=
  match p.key with
  | none => !(p.raw.isEmpty) && braceFree p.raw
  | some k => braceFree k && p.raw == brack k

/-- All parts canonical, and the raw template is exactly their concatenation
(no stray brace characters were skipped by the tokenizer). -/
def cleanTemplate (t : TextCompletionsMappingTemplate) : Bool :=
  t.parts.all cleanPart && t.raw == concatRaw t.parts

/-- Does `s` contain an occurrence of `pat` (Python `pat in s`)? -/
def containsSubstr (s pat : Str) : Bool := (findSubstr pat s).isSome

/-- No character of `v` occurs in `lit`. -/
def charsDisjoint (v lit : Str) : Bool := v.all (fun c => !(lit.contains c))

/-- Every template key has an entry in the values dict. -/
def valuesComplete (t : TextCompletionsMappingTemplate) (values : List (Str × Str)) : Bool :=
  t.keys.all (fun k => dcontains values k)

/-- Every value of a template key is brace-free. -/
def valuesBraceFree (t : TextCompletionsMappingTemplate) (values : List (Str × Str)) : Bool :=
  t.keys.all (fun k => braceFree (getV values k))

/-- No value of a template key contains the braced form of any template key. -/
def valuesNoBrackForms (t : TextCompletionsMappingTemplate) (values : List (Str × Str)) : Bool :=
  t.keys.all (fun k => t.keys.all (fun k2 => !(containsSubstr (getV values k) (brack k2))))

/-- No value of a template key shares a character with any literal part. -/
def valuesLiteralsDisjoint (t : TextCompletionsMappingTemplate) (values : List (Str × Str)) : Bool :=
  t.parts.all (fun p =>
    match p.key with
    | none => t.keys.all (fun k => charsDisjoint (getV values k) p.raw)
    | some _ => true)

/-- Nonempty and starting with a non-whitespace character. -/
def frontOK (v : Str) : Bool :=
  match v with
  | [] => false
  | c :: _ => !(c.isWhitespace)

/-- Nonempty and ending with a non-whitespace character. -/
def backOK (v : Str) : Bool := frontOK v.reverse

/-- When the first part is a placeholder, its value must be nonempty and
must not start with whitespace (so that trimming the filled text does not
eat into it). -/
def boundaryFrontOK (t : TextCompletionsMappingTemplate) (values : List (Str × Str)) : Bool :=
  match t.parts.head? with
  | some p =>
    match p.key with
    | some k => frontOK (getV values k)
    | none => true
  | none => true

/-- When the last part is a placeholder, its value must be nonempty and must
not end with whitespace. -/
def boundaryBackOK (t : TextCompletionsMappingTemplate) (values : List (Str × Str)) : Bool :=
  match t.parts.getLast? with
  | some p =>
    match p.key with
    | some k => backOK (getV values k)
    | none => true
  | none => true

/-- No two adjacent parts share the is-placeholder classification, stated
positionally (independently of the loader's own check). -/
def noAdjacentSameKind (ps : List TextCompletionsMappingTemplatePart) : Prop :=
  ∀ i, (h : i + 1 < ps.length) →
    (ps.get ⟨i, by omega⟩).key.isNone ≠ (ps.get ⟨i + 1, h⟩).key.isNone

/-- A placeholder interior that neither begins nor ends with an opening
brace (interiors never contain a closing brace), so that stripping braces
from the token recovers exactly the interior. -/
def noEdgeLb (k : Str) : Bool :=
  (match k.head? with | some c => !(c = lb) | none => true) &&
  (match k.getLast? with | some c => !(c = lb) | none => true)

/-- All placeholder interiors of the (trimmed) raw template have brace-less
edges. -/
def interiorsOK (raw : Str) : Bool :=
  (findTemplateKeys (pyStrip raw)).all noEdgeLb

/-- The scan of the spec-described simultaneous substitution, with an
explicit fuel argument so that the recursion is structural and the kernel
can evaluate it. -/
def substAllFuel (values : List (Str × Str)) (keys : List Str) : Nat → Str → Str
  | _, [] => []
  | 0, s => s
  | fuel + 1, c :: rest =>
    match keys.find? (fun k => (brack k).isPrefixOf (c :: rest)) with
    | some k => getV values k ++ substAllFuel values keys fuel ((c :: rest).drop (brack k).length)
    | none => c :: substAllFuel values keys fuel rest

/-- The substitution the spec describes for `fill`: scan the raw template
left to right; wherever the braced form of a template key occurs, replace
that occurrence by the key's value and continue after it; every key is
substituted in one simultaneous pass, the same value at each occurrence of a
repeated key. -/
def substAll (values : List (Str × Str)) (keys : List Str) (s : Str) : Str :=
  substAllFuel values keys s.length s

theorem substAllFuel_congr (values : List (Str × Str)) (keys : List Str) :
    ∀ (f1 f2 : Nat) (s : Str), s.length ≤ f1 → s.length ≤ f2 →
      substAllFuel values keys f1 s = substAllFuel values keys f2 s := by
  intro f1
  induction f1 with
  | zero =>
    intro f2 s h1 _
    have hs : s = [] := by
      cases s with
      | nil => rfl
      | cons c r => simp at h1
    subst hs
    cases f2 <;> rfl
  | succ f1p ih =>
    intro f2 s h1 h2
    cases s with
    | nil => cases f2 <;> rfl
    | cons c rest =>
      cases f2 with
      | zero => simp at h2
      | succ f2p =>
        simp only [List.length_cons] at h1 h2
        simp only [substAllFuel]
        cases hf : keys.find? (fun k => (brack k).isPrefixOf (c :: rest)) with
        | some k =>
          dsimp only
          have hd : ((c :: rest).drop (brack k).length).length ≤ rest.length := by
            simp [brack]
          rw [ih f2p ((c :: rest).drop (brack k).length) (by omega) (by omega)]
        | none =>
          dsimp only
          rw [ih f2p rest (by omega) (by omega)]

theorem substAll_nil (values : List (Str × Str)) (keys : List Str) :
    substAll values keys [] = [] := rfl

theorem substAll_unfold (values : List (Str × Str)) (keys : List Str)
    (c : Char) (rest : Str) :
    substAll values keys (c :: rest) =
      (match keys.find? (fun k => (brack k).isPrefixOf (c :: rest)) with
        | some k =>
          getV values k ++ substAll values keys ((c :: rest).drop (brack k).length)
        | none => c :: substAll values keys rest) := by
  show substAllFuel values keys (rest.length + 1) (c :: rest) = _
  simp only [substAllFuel]
  cases hf : keys.find? (fun k => (brack k).isPrefixOf (c :: rest)) with
  | some k =>
    dsimp only
    have hd : ((c :: rest).drop (brack k).length).length ≤ rest.length := by
      simp [brack]
    rw [substAllFuel_congr values keys rest.length ((c :: rest).drop (brack k).length).length
      ((c :: rest).drop (brack k).length) (by omega) (le_refl _)]
    rfl
  | none => rfl

/-- Part-wise substitution: literals keep their raw text, placeholders are
replaced by their values. -/
def substParts (values : List (Str × Str)) (ps : List TextCompletionsMappingTemplatePart) : Str :=
  ps.flatMap (fun p =>
    match p.key with
    | none => p.raw
    | some k => getV values k)

/-- Mixed substitution state used to reason about `fill`: placeholders whose
key is in `done` are already replaced, the others still show their braced
form. -/
def partialFill (values : List (Str × Str)) (done : List Str)
    (ps : List TextCompletionsMappingTemplatePart) : Str :=
  ps.flatMap (fun p =>
    match p.key with
    | none => p.raw
    | some k => if k ∈ done then getV values k else brack k)

/-- Extract the ok value of an `Except`, with a junk default. -/
def pyGetOk {ε α : Type} [Inhabited α] : Except ε α → α
  | Except.ok a => a
  | Except.error _ => default

instance : Inhabited TextCompletionsMappingTemplate := ⟨⟨[], [], []⟩⟩

instance : Inhabited TextCompletionsMappingOutput := ⟨⟨[], [], false, none⟩⟩

instance : Inhabited SchematizedTextCorpus := ⟨⟨[], []⟩⟩

instance : Inhabited TextCompletionsMappingDefinition := ⟨⟨[], default, default, [], none⟩⟩

theorem dcontains_cons {α β : Type} [DecidableEq α] (k : α) (v : β) (d : List (α × β)) (x : α) :
    dcontains ((k, v) :: d) x = ((k = x : Bool) || dcontains d x) := by
  by_cases hk : k = x <;> simp [dcontains, dlookup, hk]

theorem dlookup_map_update {α β : Type} [DecidableEq α] (a : α) (b : β) :
    ∀ (d : List (α × β)) (x : α),
      dlookup (d.map (fun p => if p.1 = a then (a, b) else p)) x =
        if x = a then (if dcontains d a then some b else none) else dlookup d x := by
  intro d
  induction d with
  | nil =>
    intro x
    by_cases hx : x = a <;> simp [dlookup, dcontains, hx]
  | cons p rest ih =>
    intro x
    obtain ⟨k, v⟩ := p
    have hfst : ((k, v) : α × β).1 = k := rfl
    rw [List.map_cons, hfst]
    by_cases hk : k = a
    · subst hk
      rw [if_pos rfl]
      by_cases hx : x = k
      · subst hx
        simp [dlookup, dcontains_cons]
      · have hxk : ¬ k = x := fun he => hx he.symm
        rw [dlookup, if_neg hxk, ih x, if_neg hx, if_neg hx, dlookup, if_neg hxk]
    · rw [if_neg hk]
      by_cases hx : k = x
      · subst hx
        have hxa : ¬ k = a := hk
        rw [dlookup, if_pos rfl, if_neg hxa, dlookup, if_pos rfl]
      · rw [dlookup, if_neg hx, ih x, dlookup, if_neg hx]
        by_cases hxa : x = a
        · subst hxa
          rw [if_pos rfl, if_pos rfl, dcontains_cons]
          simp [hk]
        · rw [if_neg hxa, if_neg hxa]

theorem dlookup_append_single {α β : Type} [DecidableEq α] (a : α) (b : β) :
    ∀ (d : List (α × β)) (x : α),
      dlookup (d ++ [(a, b)]) x =
        match dlookup d x with
        | some v => some v
        | none => if x = a then some b else none := by
  intro d
  induction d with
  | nil =>
    intro x
    by_cases hx : a = x
    · subst hx
      simp [dlookup]
    · have hx2 : ¬ x = a := fun he => hx he.symm
      simp [dlookup, hx, hx2]
  | cons p rest ih =>
    intro x
    obtain ⟨k, v⟩ := p
    by_cases hx : k = x
    · simp [dlookup, hx]
    · simp [dlookup, hx, ih x]

/-- Python dict assignment seen through lookup: the assigned key now maps to
the new value, every other key is unchanged. -/
theorem dlookup_dset {α β : Type} [DecidableEq α] (d : List (α × β)) (a : α) (b : β) (x : α) :
    dlookup (dset d a b) x = if x = a then some b else dlookup d x := by
  unfold dset
  by_cases hc : dcontains d a = true
  · simp only [hc, if_true, dlookup_map_update]
  · simp only [hc, Bool.false_eq_true, if_false, dlookup_append_single]
    by_cases hx : x = a
    · subst hx
      have : dlookup d x = none := by
        by_cases h : dlookup d x = none
        · exact h
        · exfalso
          apply hc
          simp [dcontains]
          obtain ⟨v, hv⟩ := Option.ne_none_iff_exists.mp h
          rw [← hv]
          simp
      simp [this]
    · cases h : dlookup d x <;> simp [hx]

theorem dlookup_eq_none_of_not_mem {α β : Type} [DecidableEq α] :
    ∀ {d : List (α × β)} {x : α}, x ∉ d.map Prod.fst → dlookup d x = none := by
  intro d
  induction d with
  | nil => intro x _; rfl
  | cons p rest ih =>
    intro x hx
    obtain ⟨k, v⟩ := p
    simp only [List.map_cons, List.mem_cons] at hx
    push_neg at hx
    have hk : ¬ k = x := fun he => hx.1 he.symm
    simp only [dlookup, if_neg hk]
    exact ih hx.2

/-- The default-value dictionary of `map`: every key of the list maps to the
default. -/
theorem dlookup_foldl_dset (dflt : Str) :
    ∀ (keys : List Str) (d0 : PDict) (x : Option Str),
      dlookup (keys.foldl (fun d k => dset d (some k) dflt) d0) x =
        (match x with
          | some k => if k ∈ keys then some dflt else dlookup d0 x
          | none => dlookup d0 none) := by
  intro keys
  induction keys with
  | nil =>
    intro d0 x
    cases x <;> simp
  | cons k0 rest ih =>
    intro d0 x
    rw [List.foldl_cons, ih (dset d0 (some k0) dflt) x]
    cases x with
    | none => simp [dlookup_dset]
    | some k =>
      by_cases hk : k ∈ rest
      · simp [hk]
      · by_cases hk0 : k = k0
        · subst hk0
          simp [hk, dlookup_dset]
        · have : some k ≠ some k0 := by simpa using hk0
          simp [hk, hk0, dlookup_dset, this]

theorem dlookup_exampleAdd_of_none {a : Record} :
    ∀ {b : Record} {x : Option Str}, dlookup b x = none →
      dlookup (exampleAdd a b) x = dlookup a x := by
  suffices h : ∀ (b : Record) (a : Record) (x : Option Str), dlookup b x = none →
      dlookup (exampleAdd a b) x = dlookup a x by
    intro b x hb
    exact h b a x hb
  intro b
  induction b with
  | nil => intro a x _; rfl
  | cons p rest ih =>
    intro a x hb
    obtain ⟨k, v⟩ := p
    simp only [dlookup] at hb
    by_cases hk : k = x
    · simp [hk] at hb
    · simp only [if_neg hk] at hb
      show dlookup (exampleAdd (dset a k v) rest) x = dlookup a x
      rw [ih (dset a k v) x hb, dlookup_dset]
      have : ¬ x = k := fun he => hk he.symm
      simp [this]

theorem dlookup_exampleAdd_of_some {a : Record} :
    ∀ {b : Record} {x : Option Str} {v : Str},
      (b.map Prod.fst).Nodup → dlookup b x = some v →
      dlookup (exampleAdd a b) x = some v := by
  suffices h : ∀ (b : Record) (a : Record) (x : Option Str) (v : Str),
      (b.map Prod.fst).Nodup → dlookup b x = some v →
      dlookup (exampleAdd a b) x = some v by
    intro b x v hnd hb
    exact h b a x v hnd hb
  intro b
  induction b with
  | nil => intro a x v _ hb; simp [dlookup] at hb
  | cons p rest ih =>
    intro a x v hnd hb
    obtain ⟨k, w⟩ := p
    simp only [List.map_cons, List.nodup_cons] at hnd
    simp only [dlookup] at hb
    by_cases hk : k = x
    · subst hk
      simp at hb
      subst hb
      show dlookup (exampleAdd (dset a k w) rest) k = some w
      rw [dlookup_exampleAdd_of_none (dlookup_eq_none_of_not_mem hnd.1), dlookup_dset]
      simp
    · simp only [if_neg hk] at hb
      exact ih (dset a k w) x v hnd.2 hb

theorem dcontains_exampleAdd (a : Record) :
    ∀ (b : Record) (x : Option Str),
      dcontains (exampleAdd a b) x = (dcontains a x || dcontains b x) := by
  suffices h : ∀ (b : Record) (a : Record) (x : Option Str),
      dcontains (exampleAdd a b) x = (dcontains a x || dcontains b x) by
    intro b x
    exact h b a x
  intro b
  induction b with
  | nil => intro a x; simp [exampleAdd, dcontains, dlookup]
  | cons p rest ih =>
    intro a x
    obtain ⟨k, v⟩ := p
    show dcontains (exampleAdd (dset a k v) rest) x = _
    rw [ih (dset a k v) x, dcontains_cons]
    unfold dcontains
    rw [dlookup_dset]
    by_cases hk : x = k
    · subst hk
      simp
    · have : ¬ k = x := fun he => hk he.symm
      simp [hk, this]

theorem braceFree_mem {s : Str} (h : braceFree s = true) {c : Char} (hc : c ∈ s) :
    ¬ c = lb ∧ ¬ c = rb := by
  simp only [braceFree, List.all_eq_true] at h
  have := h c hc
  simp only [isBrace, Bool.not_eq_eq_eq_not, Bool.not_true, Bool.or_eq_false_iff,
    decide_eq_false_iff_not] at this
  exact this

theorem isPrefixOf_append_self : ∀ (l t : Str), l.isPrefixOf (l ++ t) = true := by
  intro l t
  induction l with
  | nil => simp [List.isPrefixOf]
  | cons c rest ih => simp [List.isPrefixOf, ih]

theorem isPrefixOf_head_ne {c d : Char} (h : ¬ c = d) (p s : Str) :
    (c :: p).isPrefixOf (d :: s) = false := by
  simp [List.isPrefixOf, h]

theorem isPrefixOf_nil_right : ∀ (p : Str), p.isPrefixOf ([] : Str) = true → p = [] := by
  intro p h
  cases p with
  | nil => rfl
  | cons c rest => simp [List.isPrefixOf] at h

/-- A braced key ending in the closing brace matches at the front of another
brace-free key followed by the closing brace only when the keys coincide. -/
theorem prefix_unique_rb :
    ∀ {k k2 s : Str}, braceFree k = true → braceFree k2 = true →
      (k ++ [rb]).isPrefixOf (k2 ++ rb :: s) = true → k = k2 := by
  intro k
  induction k with
  | nil =>
    intro k2 s _ h2 hp
    cases k2 with
    | nil => rfl
    | cons c rest =>
      simp only [List.nil_append, List.cons_append, List.isPrefixOf] at hp
      have hc := braceFree_mem h2 (List.mem_cons_self c rest)
      simp only [Bool.and_eq_true, beq_iff_eq] at hp
      exact absurd hp.1.symm hc.2
  | cons c k1 ih =>
    intro k2 s h1 h2 hp
    cases k2 with
    | nil =>
      simp only [List.cons_append, List.nil_append, List.isPrefixOf] at hp
      have hc := braceFree_mem h1 (List.mem_cons_self c k1)
      simp only [Bool.and_eq_true, beq_iff_eq] at hp
      exact absurd hp.1 hc.2
    | cons c2 k2t =>
      simp only [List.cons_append, List.isPrefixOf, Bool.and_eq_true, beq_iff_eq] at hp
      have h1t : braceFree k1 = true := by
        simp only [braceFree, List.all_cons, Bool.and_eq_true] at h1
        exact h1.2
      have h2t : braceFree k2t = true := by
        simp only [braceFree, List.all_cons, Bool.and_eq_true] at h2
        exact h2.2
      have := ih h1t h2t hp.2
      rw [hp.1, this]

theorem length_brack (k : Str) : (brack k).length = k.length + 2 := by
  simp [brack]

/-- `replaceAll` with a pattern opening with a brace walks unchanged through
text that contains no opening brace. -/
theorem replaceAll_walk {p2 rep : Str} :
    ∀ (a s : Str), (∀ c ∈ a, ¬ c = lb) →
      replaceAll (lb :: p2) rep (a ++ s) = a ++ replaceAll (lb :: p2) rep s := by
  intro a
  induction a with
  | nil => intro s _; simp
  | cons c a2 ih =>
    intro s ha
    have hc : ¬ lb = c := fun he => (ha c (List.mem_cons_self c a2)) he.symm
    rw [List.cons_append, replaceAll_unfold, if_neg]
    · rw [ih s (fun d hd => ha d (List.mem_cons_of_mem c hd)), List.cons_append]
    · rw [isPrefixOf_head_ne hc]
      simp

/-- `replaceAll` replaces an exact occurrence of the braced key and
continues after it. -/
theorem replaceAll_token_match (k rep : Str) (s : Str) :
    replaceAll (brack k) rep (brack k ++ s) = rep ++ replaceAll (brack k) rep s := by
  have hshape : brack k ++ s = lb :: (k ++ [rb] ++ s) := by simp [brack]
  rw [hshape, replaceAll_unfold, if_pos]
  · have hdrop : (k ++ [rb] ++ s).drop ((brack k).length - 1) = s := by
      rw [length_brack]
      have h2 : k.length + 2 - 1 = (k ++ [rb]).length := by simp
      rw [h2]
      exact List.drop_left (k ++ [rb]) s
    rw [hdrop]
  · have := isPrefixOf_append_self (brack k) s
    simpa [brack] using this

/-- `replaceAll` walks unchanged over the token of a different brace-free
key. -/
theorem replaceAll_token_skip {k k2 : Str} (rep : Str)
    (h1 : braceFree k = true) (h2 : braceFree k2 = true) (hne : ¬ k = k2) :
    ∀ s : Str, replaceAll (brack k) rep (brack k2 ++ s) = brack k2 ++ replaceAll (brack k) rep s := by
  intro s
  have hshape : brack k2 ++ s = lb :: (k2 ++ rb :: s) := by simp [brack]
  rw [hshape, replaceAll_unfold, if_neg]
  · have hwalk : replaceAll (lb :: (k ++ [rb])) rep (k2 ++ rb :: s) =
        k2 ++ replaceAll (lb :: (k ++ [rb])) rep (rb :: s) := by
      apply replaceAll_walk
      intro c hc
      exact (braceFree_mem h2 hc).1
    have hbrack : brack k = lb :: (k ++ [rb]) := rfl
    rw [hbrack, hwalk, replaceAll_unfold, if_neg]
    · simp [brack]
    · rw [isPrefixOf_head_ne]
      · simp
      · decide
  · show ¬ (brack k).isPrefixOf (lb :: (k2 ++ rb :: s)) = true
    intro hp
    apply hne
    have hbrack : brack k = lb :: (k ++ [rb]) := rfl
    rw [hbrack] at hp
    simp only [List.isPrefixOf, Bool.and_eq_true, beq_iff_eq] at hp
    exact prefix_unique_rb h1 h2 hp.2

/-- The first occurrence of a following literal in the filled text sits
exactly at the end of the current value, provided the value shares no
character with the literal. -/
theorem findSubstr_boundary {lit : Str} (hne : lit ≠ []) :
    ∀ (v s : Str), charsDisjoint v lit = true →
      findSubstr lit (v ++ (lit ++ s)) = some v.length := by
  intro v
  induction v with
  | nil =>
    intro s _
    cases hl : lit ++ s with
    | nil =>
      exfalso
      cases lit with
      | nil => exact hne rfl
      | cons c r => simp at hl
    | cons c r =>
      simp only [List.nil_append, hl, findSubstr]
      rw [← hl, if_pos (isPrefixOf_append_self lit s)]
      simp
  | cons c v2 ih =>
    intro s hd
    have hd1 : c ∉ lit := by
      simp only [charsDisjoint, List.all_cons, Bool.and_eq_true] at hd
      have := hd.1
      simpa using this
    have hd2 : charsDisjoint v2 lit = true := by
      simp only [charsDisjoint, List.all_cons, Bool.and_eq_true] at hd
      exact hd.2
    rw [List.cons_append, findSubstr, if_neg]
    · rw [ih s hd2]
      simp
    · intro hp
      cases lit with
      | nil => exact hne rfl
      | cons d lit2 =>
        simp only [List.isPrefixOf, Bool.and_eq_true, beq_iff_eq] at hp
        have hmem : c ∈ d :: lit2 := by
          rw [← hp.1]
          exact List.mem_cons_self d lit2
        exact hd1 hmem

theorem getV_spec {β : Type} [Inhabited β] {d : List (Str × β)} {k : Str}
    (h : dcontains d k = true) : dlookup d k = some (getV d k) := by
  unfold dcontains at h
  unfold getV
  cases hd : dlookup d k with
  | none => rw [hd] at h; simp at h
  | some v => simp [hd]

theorem mem_uniqueKeysAux :
    ∀ (l acc : List Str) (k : Str), k ∈ uniqueKeysAux acc l ↔ k ∈ acc ∨ k ∈ l := by
  intro l
  induction l with
  | nil => intro acc k; simp [uniqueKeysAux]
  | cons k0 rest ih =>
    intro acc k
    by_cases h0 : k0 ∈ acc
    · rw [uniqueKeysAux, if_pos h0, ih acc k]
      constructor
      · intro h
        rcases h with h | h
        · exact Or.inl h
        · exact Or.inr (List.mem_cons_of_mem k0 h)
      · intro h
        rcases h with h | h
        · exact Or.inl h
        · rcases List.mem_cons.mp h with h | h
          · subst h; exact Or.inl h0
          · exact Or.inr h
    · rw [uniqueKeysAux, if_neg h0, ih (acc ++ [k0]) k]
      simp only [List.mem_append, List.mem_singleton, List.mem_cons]
      tauto

theorem nodup_uniqueKeysAux :
    ∀ (l acc : List Str), acc.Nodup → (uniqueKeysAux acc l).Nodup := by
  intro l
  induction l with
  | nil => intro acc h; simpa [uniqueKeysAux] using h
  | cons k0 rest ih =>
    intro acc h
    by_cases h0 : k0 ∈ acc
    · rw [uniqueKeysAux, if_pos h0]
      exact ih acc h
    · rw [uniqueKeysAux, if_neg h0]
      apply ih
      simp [List.nodup_append, h, h0]

theorem findTemplateKeys_append_braceFree {a : Str} (ha : braceFree a = true) :
    ∀ s, findTemplateKeys (a ++ s) = findTemplateKeys s := by
  induction a with
  | nil => intro s; simp
  | cons c a2 ih =>
    intro s
    have hc := braceFree_mem ha (List.mem_cons_self c a2)
    have ha2 : braceFree a2 = true := by
      simp only [braceFree, List.all_cons, Bool.and_eq_true] at ha
      exact ha.2
    rw [List.cons_append, findTemplateKeys_unfold, if_neg hc.1]
    exact ih ha2 s

theorem findTemplateKeys_token {k : Str} (hnotin : rb ∉ k) (s : Str) :
    findTemplateKeys (lb :: (k ++ rb :: s)) = k :: findTemplateKeys s := by
  rw [findTemplateKeys_unfold, if_pos rfl]
  split
  next before after heq =>
    rw [splitAtFirst_append hnotin] at heq
    simp only [Option.some.injEq, Prod.mk.injEq] at heq
    rw [heq.1, heq.2]
  next heq =>
    rw [splitAtFirst_append hnotin] at heq
    simp at heq

theorem findTemplateKeys_concatRaw :
    ∀ ps : List TextCompletionsMappingTemplatePart,
      (∀ p ∈ ps, cleanPart p = true) →
      findTemplateKeys (concatRaw ps) = placeholderNames ps := by
  intro ps
  induction ps with
  | nil =>
    intro _
    have h0 : concatRaw [] = ([] : Str) := by simp [concatRaw]
    rw [h0, findTemplateKeys_nil]
    simp [placeholderNames]
  | cons p rest ih =>
    intro hclean
    have hp := hclean p (List.mem_cons_self p rest)
    have hrest : ∀ q ∈ rest, cleanPart q = true :=
      fun q hq => hclean q (List.mem_cons_of_mem p hq)
    have hcr : concatRaw (p :: rest) = p.raw ++ concatRaw rest := by
      simp [concatRaw]
    cases hkey : p.key with
    | none =>
      have hbf : braceFree p.raw = true := by
        simp only [cleanPart, hkey, Bool.and_eq_true] at hp
        exact hp.2
      rw [hcr, findTemplateKeys_append_braceFree hbf, ih hrest]
      simp [placeholderNames, hkey]
    | some k =>
      have hbr : p.raw = brack k ∧ braceFree k = true := by
        simp only [cleanPart, hkey, Bool.and_eq_true, beq_iff_eq] at hp
        exact ⟨hp.2, hp.1⟩
      have hnotin : rb ∉ k := fun hmem => (braceFree_mem hbr.2 hmem).2 rfl
      have hshape : concatRaw (p :: rest) = lb :: (k ++ rb :: concatRaw rest) := by
        rw [hcr, hbr.1]
        simp [brack]
      rw [hshape, findTemplateKeys_token hnotin, ih hrest]
      simp [placeholderNames, hkey]

/-- One `str.replace` pass over the mixed text replaces exactly the braced
occurrences of the processed key. -/
theorem replaceAll_partialFill (values : List (Str × Str)) (k0 : Str)
    (hk0 : braceFree k0 = true) :
    ∀ (ps : List TextCompletionsMappingTemplatePart) (done : List Str),
      (∀ p ∈ ps, cleanPart p = true) →
      (∀ k ∈ done, braceFree (getV values k) = true) →
      replaceAll (brack k0) (getV values k0) (partialFill values done ps) =
        partialFill values (done ++ [k0]) ps := by
  intro ps
  induction ps with
  | nil => intro done _ _; simp [partialFill, replaceAll_nil]
  | cons p rest ih =>
    intro done hclean hdone
    have hp := hclean p (List.mem_cons_self p rest)
    have hrest : ∀ q ∈ rest, cleanPart q = true :=
      fun q hq => hclean q (List.mem_cons_of_mem p hq)
    have hbrackk0 : brack k0 = lb :: (k0 ++ [rb]) := rfl
    cases hkey : p.key with
    | none =>
      have hbf : braceFree p.raw = true := by
        simp only [cleanPart, hkey, Bool.and_eq_true] at hp
        exact hp.2
      have hunf : partialFill values done (p :: rest) =
          p.raw ++ partialFill values done rest := by
        simp [partialFill, hkey]
      have hunf2 : partialFill values (done ++ [k0]) (p :: rest) =
          p.raw ++ partialFill values (done ++ [k0]) rest := by
        simp [partialFill, hkey]
      rw [hunf, hunf2, hbrackk0,
        replaceAll_walk _ _ (fun c hc => (braceFree_mem hbf hc).1), ← hbrackk0,
        ih done hrest hdone]
    | some k =>
      have hbr : p.raw = brack k ∧ braceFree k = true := by
        simp only [cleanPart, hkey, Bool.and_eq_true, beq_iff_eq] at hp
        exact ⟨hp.2, hp.1⟩
      by_cases hdonek : k ∈ done
      · have hunf : partialFill values done (p :: rest) =
            getV values k ++ partialFill values done rest := by
          simp [partialFill, hkey, hdonek]
        have hunf2 : partialFill values (done ++ [k0]) (p :: rest) =
            getV values k ++ partialFill values (done ++ [k0]) rest := by
          have hmem : k ∈ done ++ [k0] := List.mem_append_left _ hdonek
          simp only [partialFill, List.flatMap_cons, hkey]
          rw [if_pos hmem]
        have hvf : braceFree (getV values k) = true := hdone k hdonek
        rw [hunf, hunf2, hbrackk0,
          replaceAll_walk _ _ (fun c hc => (braceFree_mem hvf hc).1), ← hbrackk0,
          ih done hrest hdone]
      · by_cases heq : k = k0
        · subst heq
          have hunf : partialFill values done (p :: rest) =
              brack k ++ partialFill values done rest := by
            simp [partialFill, hkey, hdonek]
          have hunf2 : partialFill values (done ++ [k]) (p :: rest) =
              getV values k ++ partialFill values (done ++ [k]) rest := by
            have hmem : k ∈ done ++ [k] := List.mem_append_right _ (List.mem_singleton.mpr rfl)
            simp only [partialFill, List.flatMap_cons, hkey]
            rw [if_pos hmem]
          rw [hunf, hunf2, replaceAll_token_match, ih done hrest hdone]
        · have hunf : partialFill values done (p :: rest) =
              brack k ++ partialFill values done rest := by
            simp [partialFill, hkey, hdonek]
          have hnotin2 : k ∉ done ++ [k0] := by
            simp only [List.mem_append, List.mem_singleton]
            push_neg
            exact ⟨hdonek, heq⟩
          have hunf2 : partialFill values (done ++ [k0]) (p :: rest) =
              brack k ++ partialFill values (done ++ [k0]) rest := by
            simp only [partialFill, List.flatMap_cons, hkey]
            rw [if_neg hnotin2]
          have hne0 : ¬ k0 = k := fun he => heq he.symm
          rw [hunf, hunf2, replaceAll_token_skip _ hk0 hbr.2 hne0,
            ih done hrest hdone]

theorem fillLoop_partialFill (values : List (Str × Str)) (raw : Str)
    (ps : List TextCompletionsMappingTemplatePart)
    (hclean : ∀ p ∈ ps, cleanPart p = true) :
    ∀ (ks done : List Str),
      (∀ k ∈ ks, dcontains values k = true) →
      (∀ k ∈ ks, braceFree k = true) →
      (∀ k ∈ done, braceFree (getV values k) = true) →
      (∀ k ∈ ks, braceFree (getV values k) = true) →
      fillLoop raw values (partialFill values done ps) ks =
        Except.ok (partialFill values (done ++ ks) ps) := by
  intro ks
  induction ks with
  | nil =>
    intro done _ _ _ _
    simp [fillLoop]
  | cons k0 rest ih =>
    intro done hcont hkbf hdone hvbf
    have hc0 : dcontains values k0 = true := hcont k0 (List.mem_cons_self k0 rest)
    rw [fillLoop, if_pos hc0]
    rw [replaceAll_partialFill values k0 (hkbf k0 (List.mem_cons_self k0 rest)) ps done hclean hdone]
    have hdone2 : ∀ k ∈ done ++ [k0], braceFree (getV values k) = true := by
      intro k hk
      rcases List.mem_append.mp hk with h | h
      · exact hdone k h
      · rw [List.mem_singleton.mp h]
        exact hvbf k0 (List.mem_cons_self k0 rest)
    have := ih (done ++ [k0])
      (fun k hk => hcont k (List.mem_cons_of_mem k0 hk))
      (fun k hk => hkbf k (List.mem_cons_of_mem k0 hk))
      hdone2
      (fun k hk => hvbf k (List.mem_cons_of_mem k0 hk))
    rw [this, List.append_assoc]
    rfl

theorem partialFill_nil_eq_concatRaw (values : List (Str × Str)) :
    ∀ ps : List TextCompletionsMappingTemplatePart,
      (∀ p ∈ ps, cleanPart p = true) →
      partialFill values [] ps = concatRaw ps := by
  intro ps
  induction ps with
  | nil => intro _; simp [partialFill, concatRaw]
  | cons p rest ih =>
    intro hclean
    have hp := hclean p (List.mem_cons_self p rest)
    have hrest : ∀ q ∈ rest, cleanPart q = true :=
      fun q hq => hclean q (List.mem_cons_of_mem p hq)
    cases hkey : p.key with
    | none =>
      simp only [partialFill, concatRaw, List.flatMap_cons, hkey] at *
      rw [ih hrest]
    | some k =>
      have hbr : p.raw = brack k := by
        simp only [cleanPart, hkey, Bool.and_eq_true, beq_iff_eq] at hp
        exact hp.2
      simp only [partialFill, concatRaw, List.flatMap_cons, hkey] at *
      rw [ih hrest, hbr]
      simp

theorem placeholderNames_cons_none {p : TextCompletionsMappingTemplatePart}
    (hkey : p.key = none) (rest : List TextCompletionsMappingTemplatePart) :
    placeholderNames (p :: rest) = placeholderNames rest := by
  simp [placeholderNames, List.filterMap_cons, hkey]

theorem placeholderNames_cons_some {p : TextCompletionsMappingTemplatePart} {k : Str}
    (hkey : p.key = some k) (rest : List TextCompletionsMappingTemplatePart) :
    placeholderNames (p :: rest) = k :: placeholderNames rest := by
  simp [placeholderNames, List.filterMap_cons, hkey]

theorem partialFill_all (values : List (Str × Str)) :
    ∀ (ps : List TextCompletionsMappingTemplatePart) (done : List Str),
      (∀ k ∈ placeholderNames ps, k ∈ done) →
      partialFill values done ps = substParts values ps := by
  intro ps
  induction ps with
  | nil => intro done _; simp [partialFill, substParts]
  | cons p rest ih =>
    intro done hall
    cases hkey : p.key with
    | none =>
      have hall2 : ∀ q ∈ placeholderNames rest, q ∈ done := by
        intro q hq
        apply hall
        rw [placeholderNames_cons_none hkey]
        exact hq
      simp only [partialFill, substParts, List.flatMap_cons, hkey]
      have hr := ih done hall2
      simp only [partialFill, substParts] at hr
      rw [hr]
    | some k =>
      have hall2 : ∀ q ∈ placeholderNames rest, q ∈ done := by
        intro q hq
        apply hall
        rw [placeholderNames_cons_some hkey]
        exact List.mem_cons_of_mem k hq
      have hmem : k ∈ done := by
        apply hall
        rw [placeholderNames_cons_some hkey]
        exact List.mem_cons_self k (placeholderNames rest)
      simp only [partialFill, substParts, List.flatMap_cons, hkey]
      rw [if_pos hmem]
      have hr := ih done hall2
      simp only [partialFill, substParts] at hr
      rw [hr]

/-- Unpacking a successful `load`. -/
theorem load_ok_spec {raw0 : Str} {t : TextCompletionsMappingTemplate}
    (h : TextCompletionsMappingTemplate.load raw0 = Except.ok t) :
    t.raw = pyStrip raw0 ∧ t.parts = tokenize (pyStrip raw0) ∧
      t.keys = parse_template_keys (pyStrip raw0) ∧
      alternatesOK t.parts = true ∧ t.parts ≠ [] := by
  have h2 : TextCompletionsMappingTemplate.load raw0 =
      (match parse_template_into_parts (pyStrip raw0) with
        | Except.error e => Except.error e
        | Except.ok ps =>
          Except.ok ⟨pyStrip raw0, ps, parse_template_keys (pyStrip raw0)⟩) := rfl
  rw [h2] at h
  cases hps : parse_template_into_parts (pyStrip raw0) with
  | error e => rw [hps] at h; simp at h
  | ok ps =>
    rw [hps] at h
    simp only [Except.ok.injEq] at h
    subst h
    unfold parse_template_into_parts at hps
    by_cases halt : alternatesOK (tokenize (pyStrip raw0)) = true
    · simp only [halt, if_true] at hps
      by_cases hemp : (tokenize (pyStrip raw0)).isEmpty = true
      · simp [hemp] at hps
      · simp only [hemp, Bool.false_eq_true, if_false, Except.ok.injEq] at hps
        subst hps
        refine ⟨rfl, rfl, rfl, halt, ?_⟩
        intro hnil
        apply hemp
        simp only [List.isEmpty_iff]
        simpa using hnil
    · simp [halt] at hps

/-- `fill` on a clean loaded template, with all values present and brace
free, substitutes part-wise. -/
theorem fill_eq_substParts {raw0 : Str} {t : TextCompletionsMappingTemplate}
    (values : List (Str × Str))
    (hload : TextCompletionsMappingTemplate.load raw0 = Except.ok t)
    (hct : cleanTemplate t = true)
    (hcomp : valuesComplete t values = true)
    (hvbf : valuesBraceFree t values = true) :
    t.fill values = Except.ok (substParts values t.parts) := by
  obtain ⟨hraw, hparts, hkeys, halt, hne⟩ := load_ok_spec hload
  have hclean : ∀ p ∈ t.parts, cleanPart p = true := by
    intro p hp
    have := (Bool.and_eq_true _ _).mp hct
    simp only [List.all_eq_true] at this
    exact this.1 p hp
  have hconcat : t.raw = concatRaw t.parts := by
    have := (Bool.and_eq_true _ _).mp hct
    exact beq_iff_eq.mp this.2
  have hkeysnames : ∀ k, k ∈ t.keys ↔ k ∈ placeholderNames t.parts := by
    intro k
    rw [hkeys, parse_template_keys, mem_uniqueKeysAux]
    have : findTemplateKeys (pyStrip raw0) = placeholderNames t.parts := by
      rw [← hraw, hconcat]
      exact findTemplateKeys_concatRaw t.parts hclean
    rw [this]
    simp
  have hkbf : ∀ k ∈ t.keys, braceFree k = true := by
    intro k hk
    rcases List.mem_filterMap.mp ((hkeysnames k).mp hk) with ⟨p, hp, hpk⟩
    have := hclean p hp
    simp only [cleanPart, hpk, Bool.and_eq_true] at this
    exact this.1
  have hcomp2 : ∀ k ∈ t.keys, dcontains values k = true := by
    intro k hk
    simp only [valuesComplete, List.all_eq_true] at hcomp
    exact hcomp k hk
  have hvbf2 : ∀ k ∈ t.keys, braceFree (getV values k) = true := by
    intro k hk
    simp only [valuesBraceFree, List.all_eq_true] at hvbf
    exact hvbf k hk
  unfold TextCompletionsMappingTemplate.fill
  have hstart : t.raw = partialFill values [] t.parts := by
    rw [hconcat, partialFill_nil_eq_concatRaw values t.parts hclean]
  rw [hstart]
  rw [fillLoop_partialFill values (partialFill values [] t.parts) t.parts hclean t.keys []
    hcomp2 hkbf (by intro k hk; simp at hk) hvbf2]
  rw [List.nil_append]
  rw [partialFill_all values t.parts t.keys (fun k hk => (hkeysnames k).mpr hk)]

theorem head_dropWhile_false {p : Char → Bool} :
    ∀ {s : Str} {c : Char}, (s.dropWhile p).head? = some c → p c = false := by
  intro s
  induction s with
  | nil => intro c h; simp [List.dropWhile] at h
  | cons d rest ih =>
    intro c h
    rw [List.dropWhile] at h
    by_cases hd : p d
    · simp only [hd, if_true] at h
      exact ih h
    · simp only [hd, Bool.false_eq_true, if_false, List.head?_cons, Option.some.injEq] at h
      subst h
      simpa using hd

theorem dropWhile_eq_self_of_head {p : Char → Bool} {s : Str}
    (h : ∀ c, s.head? = some c → p c = false) : s.dropWhile p = s := by
  cases s with
  | nil => rfl
  | cons c rest =>
    rw [List.dropWhile]
    simp [h c rfl]

theorem head?_append_left {a : Str} (b : Str) (h : a ≠ []) : (a ++ b).head? = a.head? := by
  cases a with
  | nil => exact absurd rfl h
  | cons c rest => rfl

theorem getLast?_append_right {b : Str} (a : Str) (h : b ≠ []) :
    (a ++ b).getLast? = b.getLast? := by
  rw [← List.head?_reverse (a ++ b), ← List.head?_reverse b, List.reverse_append]
  apply head?_append_left
  simpa using h

theorem stripChars_head_false {p : Char → Bool} {s : Str} {c : Char}
    (h : (stripChars p s).head? = some c) : p c = false := by
  unfold stripChars at h
  have hsplit :
      List.takeWhile p (s.dropWhile p).reverse ++ List.dropWhile p (s.dropWhile p).reverse =
        (s.dropWhile p).reverse := List.takeWhile_append_dropWhile p _
  have husplit : (List.dropWhile p (s.dropWhile p).reverse).reverse ++
      (List.takeWhile p (s.dropWhile p).reverse).reverse = s.dropWhile p := by
    have h2 := congrArg List.reverse hsplit
    rw [List.reverse_append, List.reverse_reverse] at h2
    exact h2
  have hvne : (List.dropWhile p (s.dropWhile p).reverse).reverse ≠ [] := by
    intro hnil
    rw [hnil] at h
    simp at h
  have hhead : (s.dropWhile p).head? = some c := by
    rw [← husplit, head?_append_left _ hvne]
    exact h
  exact head_dropWhile_false hhead

theorem stripChars_getLast_false {p : Char → Bool} {s : Str} {c : Char}
    (h : (stripChars p s).getLast? = some c) : p c = false := by
  unfold stripChars at h
  rw [← List.head?_reverse, List.reverse_reverse] at h
  exact head_dropWhile_false h

theorem stripChars_eq_self {p : Char → Bool} {s : Str}
    (hhead : ∀ c, s.head? = some c → p c = false)
    (hlast : ∀ c, s.getLast? = some c → p c = false) : stripChars p s = s := by
  unfold stripChars
  rw [dropWhile_eq_self_of_head hhead]
  rw [dropWhile_eq_self_of_head (fun c hc => hlast c (by rwa [List.head?_reverse] at hc))]
  exact List.reverse_reverse s

theorem alternatesOK_tail {p : TextCompletionsMappingTemplatePart}
    {rest : List TextCompletionsMappingTemplatePart}
    (h : alternatesOK (p :: rest) = true) : alternatesOK rest = true := by
  cases rest with
  | nil => rfl
  | cons q r =>
    rw [alternatesOK] at h
    exact (Bool.and_eq_true _ _).mp h |>.2

theorem alternatesOK_pair {p q : TextCompletionsMappingTemplatePart}
    {rest : List TextCompletionsMappingTemplatePart}
    (h : alternatesOK (p :: q :: rest) = true) : ¬ p.key.isNone = q.key.isNone := by
  rw [alternatesOK] at h
  have := (Bool.and_eq_true _ _).mp h |>.1
  simpa using this

/-- The while loop of `parse` inverts part-wise substitution: on an
alternating part list starting with a placeholder, it returns the dictionary
that sends every placeholder to its value. -/
theorem parseLoop_inverts (values : List (Str × Str)) :
    ∀ (ps : List TextCompletionsMappingTemplatePart) (d0 : PDict),
      (∀ p ∈ ps, cleanPart p = true) →
      alternatesOK ps = true →
      (∀ p, ps.head? = some p → p.key.isSome = true) →
      (∀ p ∈ ps, p.key = none →
        ∀ k ∈ placeholderNames ps, charsDisjoint (getV values k) p.raw = true) →
      ∃ dres, parseLoop ps (substParts values ps) d0 = Except.ok dres ∧
        (∀ k2 : Str, dlookup dres (some k2) =
          if k2 ∈ placeholderNames ps then some (getV values k2)
          else dlookup d0 (some k2)) ∧
        dlookup dres none = dlookup d0 none := by
  intro ps
  match ps with
  | [] =>
    intro d0 _ _ _ _
    refine ⟨d0, rfl, ?_, rfl⟩
    intro k2
    simp [placeholderNames]
  | [p] =>
    intro d0 hclean _ hhead _
    have hks : p.key.isSome = true := hhead p rfl
    obtain ⟨k, hk⟩ := Option.isSome_iff_exists.mp hks
    have hsub : substParts values [p] = getV values k := by
      simp [substParts, hk]
    refine ⟨dset d0 p.key (substParts values [p]), rfl, ?_, ?_⟩
    · intro k2
      rw [hk, hsub, dlookup_dset, placeholderNames_cons_some hk]
      by_cases hk2 : k2 = k
      · subst hk2
        simp [placeholderNames]
      · have hne : ¬ (some k2 : Option Str) = some k := by simpa using hk2
        rw [if_neg hne, if_neg]
        simp [placeholderNames, hk2]
    · rw [hk, dlookup_dset]
      simp
  | p :: q :: rest =>
    intro d0 hclean halt hhead hdisj
    have hks : p.key.isSome = true := hhead p rfl
    obtain ⟨k, hk⟩ := Option.isSome_iff_exists.mp hks
    have hqnone : q.key = none := by
      have hpair := alternatesOK_pair halt
      cases hq : q.key with
      | none => rfl
      | some k2 => rw [hk, hq] at hpair; simp at hpair
    have hqclean := hclean q (List.mem_cons_of_mem p (List.mem_cons_self q rest))
    have hqraw : q.raw ≠ [] ∧ braceFree q.raw = true := by
      simp only [cleanPart, hqnone, Bool.and_eq_true, List.isEmpty_iff] at hqclean
      constructor
      · have := hqclean.1
        simpa using this
      · exact hqclean.2
    have hkmem : k ∈ placeholderNames (p :: q :: rest) := by
      rw [placeholderNames_cons_some hk]
      exact List.mem_cons_self _ _
    have hdisjk : charsDisjoint (getV values k) q.raw = true :=
      hdisj q (List.mem_cons_of_mem p (List.mem_cons_self q rest)) hqnone k hkmem
    have hsub : substParts values (p :: q :: rest) =
        getV values k ++ (q.raw ++ substParts values rest) := by
      simp [substParts, hk, hqnone]
    have hfind : findSubstr q.raw (substParts values (p :: q :: rest)) =
        some (getV values k).length := by
      rw [hsub]
      exact findSubstr_boundary hqraw.1 (getV values k) (substParts values rest) hdisjk
    have htake : (substParts values (p :: q :: rest)).take (getV values k).length =
        getV values k := by
      rw [hsub]
      exact List.take_left _ _
    have hdrop : (substParts values (p :: q :: rest)).drop
        ((getV values k).length + q.raw.length) = substParts values rest := by
      rw [hsub, ← List.append_assoc]
      exact List.drop_left' (by simp)
    have hresthead : ∀ r, rest.head? = some r → r.key.isSome = true := by
      intro r hr
      cases rest with
      | nil => simp at hr
      | cons r0 rest2 =>
        simp only [List.head?_cons, Option.some.injEq] at hr
        have hpair := alternatesOK_pair (alternatesOK_tail halt)
        rw [← hr]
        cases hrk : r0.key with
        | none => rw [hqnone, hrk] at hpair; simp at hpair
        | some k2 => simp [hrk]
    have hrestclean : ∀ r ∈ rest, cleanPart r = true :=
      fun r hr => hclean r (List.mem_cons_of_mem p (List.mem_cons_of_mem q hr))
    have hrestalt : alternatesOK rest = true := alternatesOK_tail (alternatesOK_tail halt)
    have hnamessub : ∀ k2, k2 ∈ placeholderNames rest →
        k2 ∈ placeholderNames (p :: q :: rest) := by
      intro k2 hk2
      rw [placeholderNames_cons_some hk, placeholderNames_cons_none hqnone]
      exact List.mem_cons_of_mem k hk2
    have hrestdisj : ∀ r ∈ rest, r.key = none →
        ∀ k2 ∈ placeholderNames rest, charsDisjoint (getV values k2) r.raw = true := by
      intro r hr hrk k2 hk2
      exact hdisj r (List.mem_cons_of_mem p (List.mem_cons_of_mem q hr)) hrk k2
        (hnamessub k2 hk2)
    obtain ⟨dres, hres, hlookS, hlookN⟩ := parseLoop_inverts values rest
      (dset d0 p.key (getV values k)) hrestclean hrestalt hresthead hrestdisj
    refine ⟨dres, ?_, ?_, ?_⟩
    · rw [parseLoop]
      simp only [hfind]
      rw [htake, hdrop]
      exact hres
    · intro k2
      rw [hlookS k2]
      by_cases hmem : k2 ∈ placeholderNames rest
      · rw [if_pos hmem, if_pos (hnamessub k2 hmem)]
      · rw [if_neg hmem, hk, dlookup_dset]
        by_cases hk2 : k2 = k
        · subst hk2
          rw [if_pos rfl, if_pos hkmem]
        · have hne : ¬ (some k2 : Option Str) = some k := by simpa using hk2
          have hnotin : k2 ∉ placeholderNames (p :: q :: rest) := by
            rw [placeholderNames_cons_some hk, placeholderNames_cons_none hqnone]
            simp only [List.mem_cons]
            push_neg
            exact ⟨hk2, hmem⟩
          rw [if_neg hne, if_neg hnotin]
    · rw [hlookN, hk, dlookup_dset]
      simp

theorem cleanTemplate_spec {t : TextCompletionsMappingTemplate} (hct : cleanTemplate t = true) :
    (∀ p ∈ t.parts, cleanPart p = true) ∧ t.raw = concatRaw t.parts := by
  have := (Bool.and_eq_true _ _).mp hct
  constructor
  · intro p hp
    have h1 := this.1
    simp only [List.all_eq_true] at h1
    exact h1 p hp
  · exact beq_iff_eq.mp this.2

theorem cleanPart_none {p : TextCompletionsMappingTemplatePart}
    (hc : cleanPart p = true) (hk : p.key = none) :
    p.raw ≠ [] ∧ braceFree p.raw = true := by
  simp only [cleanPart, hk, Bool.and_eq_true, List.isEmpty_iff] at hc
  constructor
  · have := hc.1
    simpa using this
  · exact hc.2

theorem cleanPart_some {p : TextCompletionsMappingTemplatePart} {k : Str}
    (hc : cleanPart p = true) (hk : p.key = some k) :
    p.raw = brack k ∧ braceFree k = true := by
  simp only [cleanPart, hk, Bool.and_eq_true, beq_iff_eq] at hc
  exact ⟨hc.2, hc.1⟩

theorem substParts_append (values : List (Str × Str))
    (l1 l2 : List TextCompletionsMappingTemplatePart) :
    substParts values (l1 ++ l2) = substParts values l1 ++ substParts values l2 := by
  simp [substParts]

theorem concatRaw_append (l1 l2 : List TextCompletionsMappingTemplatePart) :
    concatRaw (l1 ++ l2) = concatRaw l1 ++ concatRaw l2 := by
  simp [concatRaw]

/-- Under the boundary conditions, trimming the filled text is the
identity. -/
theorem filled_strip_eq {raw0 : Str} {t : TextCompletionsMappingTemplate}
    (values : List (Str × Str))
    (hload : TextCompletionsMappingTemplate.load raw0 = Except.ok t)
    (hct : cleanTemplate t = true)
    (hfront : boundaryFrontOK t values = true)
    (hback : boundaryBackOK t values = true) :
    pyStrip (substParts values t.parts) = substParts values t.parts := by
  obtain ⟨hraw, hparts, hkeys, halt, hne⟩ := load_ok_spec hload
  obtain ⟨hclean, hconcat⟩ := cleanTemplate_spec hct
  unfold pyStrip
  apply stripChars_eq_self
  · -- front
    cases hp : t.parts with
    | nil => exact absurd hp hne
    | cons p0 restP =>
      intro c hc
      cases hk0 : p0.key with
      | none =>
        have hcl := cleanPart_none (hclean p0 (by rw [hp]; exact List.mem_cons_self _ _)) hk0
        have hsub : substParts values (p0 :: restP) = p0.raw ++ substParts values restP := by
          simp [substParts, hk0]
        rw [hsub, head?_append_left _ hcl.1] at hc
        have hrawhead : (pyStrip raw0).head? = some c := by
          rw [← hraw, hconcat, hp]
          have : concatRaw (p0 :: restP) = p0.raw ++ concatRaw restP := by simp [concatRaw]
          rw [this, head?_append_left _ hcl.1]
          exact hc
        exact stripChars_head_false hrawhead
      | some k =>
        have hfr : frontOK (getV values k) = true := by
          unfold boundaryFrontOK at hfront
          rw [hp] at hfront
          simp only [List.head?_cons, hk0] at hfront
          exact hfront
        have hsub : substParts values (p0 :: restP) = getV values k ++ substParts values restP := by
          simp [substParts, hk0]
        cases hv : getV values k with
        | nil => rw [hv] at hfr; simp [frontOK] at hfr
        | cons c0 v2 =>
          rw [hsub, hv, List.cons_append, List.head?_cons, Option.some.injEq] at hc
          subst hc
          rw [hv] at hfr
          simp only [frontOK, Bool.not_eq_eq_eq_not, Bool.not_true] at hfr
          simpa using hfr
  · -- back
    intro c hc
    have hq := List.getLast_mem hne
    set q := t.parts.getLast hne with hqdef
    have hsplit : t.parts.dropLast ++ [q] = t.parts := List.dropLast_append_getLast hne
    have hlastq : t.parts.getLast? = some q := List.getLast?_eq_getLast t.parts hne
    cases hk0 : q.key with
    | none =>
      have hcl := cleanPart_none (hclean q hq) hk0
      have hsub1 : substParts values [q] = q.raw := by simp [substParts, hk0]
      have hsub : substParts values t.parts =
          substParts values t.parts.dropLast ++ q.raw := by
        rw [← hsplit, substParts_append, hsub1]
        rw [hsplit]
      rw [hsub, getLast?_append_right _ hcl.1] at hc
      have hrawlast : (pyStrip raw0).getLast? = some c := by
        rw [← hraw, hconcat, ← hsplit, concatRaw_append]
        have : concatRaw [q] = q.raw := by simp [concatRaw]
        rw [this, getLast?_append_right _ hcl.1]
        exact hc
      exact stripChars_getLast_false hrawlast
    | some k =>
      have hbk : backOK (getV values k) = true := by
        unfold boundaryBackOK at hback
        rw [hlastq] at hback
        simp only [hk0] at hback
        exact hback
      have hvne : getV values k ≠ [] := by
        intro hnil
        rw [backOK, hnil] at hbk
        simp [frontOK] at hbk
      have hsub1 : substParts values [q] = getV values k := by simp [substParts, hk0]
      have hsub : substParts values t.parts =
          substParts values t.parts.dropLast ++ getV values k := by
        rw [← hsplit, substParts_append, hsub1]
        rw [hsplit]
      rw [hsub, getLast?_append_right _ hvne] at hc
      rw [backOK] at hbk
      cases hrv : (getV values k).reverse with
      | nil =>
        exfalso
        apply hvne
        simpa using hrv
      | cons c0 w =>
        have hgl : (getV values k).getLast? = some c0 := by
          rw [← List.head?_reverse, hrv, List.head?_cons]
        rw [hgl, Option.some.injEq] at hc
        subst hc
        rw [hrv] at hbk
        simp only [frontOK, Bool.not_eq_eq_eq_not, Bool.not_true] at hbk
        simpa using hbk

theorem parse_cons {t : TextCompletionsMappingTemplate}
    {p0 : TextCompletionsMappingTemplatePart}
    {restP : List TextCompletionsMappingTemplatePart}
    (hps : t.parts = p0 :: restP) (text : Str) :
    t.parse text =
      (if p0.key.isNone then
        (if p0.raw.isPrefixOf text then
          parseLoop restP ((pyStrip text).drop p0.raw.length) []
        else Except.error (msgExpectedStart p0.raw text))
      else parseLoop (p0 :: restP) (pyStrip text) []) := by
  unfold TextCompletionsMappingTemplate.parse
  rw [hps]

theorem keys_iff_names {raw0 : Str} {t : TextCompletionsMappingTemplate}
    (hload : TextCompletionsMappingTemplate.load raw0 = Except.ok t)
    (hct : cleanTemplate t = true) :
    ∀ k, k ∈ t.keys ↔ k ∈ placeholderNames t.parts := by
  obtain ⟨hraw, hparts, hkeys, halt, hne⟩ := load_ok_spec hload
  obtain ⟨hclean, hconcat⟩ := cleanTemplate_spec hct
  intro k
  rw [hkeys, parse_template_keys, mem_uniqueKeysAux]
  have h2 : findTemplateKeys (pyStrip raw0) = placeholderNames t.parts := by
    rw [← hraw, hconcat]
    exact findTemplateKeys_concatRaw t.parts hclean
  rw [h2]
  simp

theorem valuesLiteralsDisjoint_spec {t : TextCompletionsMappingTemplate}
    {values : List (Str × Str)} (h : valuesLiteralsDisjoint t values = true) :
    ∀ p ∈ t.parts, p.key = none → ∀ k ∈ t.keys,
      charsDisjoint (getV values k) p.raw = true := by
  intro p hp hpk k hk
  simp only [valuesLiteralsDisjoint, List.all_eq_true] at h
  have h2 := h p hp
  simp only [hpk, List.all_eq_true] at h2
  exact h2 k hk

theorem valuesComplete_spec {t : TextCompletionsMappingTemplate}
    {values : List (Str × Str)} (h : valuesComplete t values = true) :
    ∀ k ∈ t.keys, dcontains values k = true := by
  intro k hk
  simp only [valuesComplete, List.all_eq_true] at h
  exact h k hk

/-- The repaired round trip: on a clean loaded template, with values that
are brace-free, character-disjoint from every literal, and well-behaved at
the boundaries, `parse` recovers from `fill`'s output exactly the values of
the template's keys. -/
theorem template_roundtrip {raw0 : Str} {t : TextCompletionsMappingTemplate}
    (values : List (Str × Str))
    (hload : TextCompletionsMappingTemplate.load raw0 = Except.ok t)
    (hct : cleanTemplate t = true)
    (hcomp : valuesComplete t values = true)
    (hvbf : valuesBraceFree t values = true)
    (hdisj : valuesLiteralsDisjoint t values = true)
    (hfront : boundaryFrontOK t values = true)
    (hback : boundaryBackOK t values = true) :
    ∃ f, t.fill values = Except.ok f ∧
    ∃ d, t.parse f = Except.ok d ∧
      (∀ k : Str, dlookup d (some k) =
        if k ∈ t.keys then dlookup values k else none) ∧
      dlookup d none = none := by
  obtain ⟨hraw, hparts, hkeys, halt, hne⟩ := load_ok_spec hload
  obtain ⟨hclean, hconcat⟩ := cleanTemplate_spec hct
  have hfill := fill_eq_substParts values hload hct hcomp hvbf
  refine ⟨substParts values t.parts, hfill, ?_⟩
  have hstrip := filled_strip_eq values hload hct hfront hback
  have hknames := keys_iff_names hload hct
  have hcomp2 := valuesComplete_spec hcomp
  have hdisj2 := valuesLiteralsDisjoint_spec hdisj
  cases hp : t.parts with
  | nil => exact absurd hp hne
  | cons p0 restP =>
    have halt2 : alternatesOK (p0 :: restP) = true := by rw [← hp]; exact halt
    have hclean2 : ∀ q ∈ p0 :: restP, cleanPart q = true := by
      intro q hq
      apply hclean
      rw [hp]
      exact hq
    rw [parse_cons hp]
    cases hk0 : p0.key with
    | none =>
      have hcl0 := cleanPart_none (hclean2 p0 (List.mem_cons_self _ _)) hk0
      have hsub : substParts values (p0 :: restP) = p0.raw ++ substParts values restP := by
        simp [substParts, hk0]
      have hstrip2 : pyStrip (substParts values (p0 :: restP)) =
          substParts values (p0 :: restP) := by
        rw [← hp]
        exact hstrip
      have hnames0 : placeholderNames t.parts = placeholderNames restP := by
        rw [hp, placeholderNames_cons_none hk0]
      rw [if_pos (by simp)]
      rw [if_pos (by rw [hsub]; exact isPrefixOf_append_self _ _)]
      rw [hstrip2, hsub, List.drop_left]
      have hheadr : ∀ r, restP.head? = some r → r.key.isSome = true := by
        intro r hr
        cases restP with
        | nil => simp at hr
        | cons r0 rest2 =>
          simp only [List.head?_cons, Option.some.injEq] at hr
          have hpair := alternatesOK_pair halt2
          rw [← hr]
          cases hrk : r0.key with
          | none => rw [hk0, hrk] at hpair; simp at hpair
          | some k2 => simp [hrk]
      have hrdisj : ∀ r ∈ restP, r.key = none →
          ∀ k ∈ placeholderNames restP, charsDisjoint (getV values k) r.raw = true := by
        intro r hr hrk k hkmem
        apply hdisj2 r (by rw [hp]; exact List.mem_cons_of_mem p0 hr) hrk
        rw [hknames, hnames0]
        exact hkmem
      obtain ⟨dres, hres, hlookS, hlookN⟩ := parseLoop_inverts values restP []
        (fun q hq => hclean2 q (List.mem_cons_of_mem p0 hq))
        (alternatesOK_tail halt2) hheadr hrdisj
      refine ⟨dres, hres, ?_, by rw [hlookN]; rfl⟩
      intro k
      rw [hlookS k]
      by_cases hm : k ∈ t.keys
      · have hmn : k ∈ placeholderNames restP := by
          rw [← hnames0, ← hknames]
          exact hm
        rw [if_pos hmn, if_pos hm, getV_spec (hcomp2 k hm)]
      · have hmn : k ∉ placeholderNames restP := by
          rw [← hnames0, ← hknames]
          exact hm
        rw [if_neg hmn, if_neg hm]
        rfl
    | some k0 =>
      have hnames0 : placeholderNames t.parts = placeholderNames (p0 :: restP) := by
        rw [hp]
      have hstrip2 : pyStrip (substParts values (p0 :: restP)) =
          substParts values (p0 :: restP) := by
        rw [← hp]
        exact hstrip
      rw [if_neg (by simp)]
      rw [hstrip2]
      have hheadr : ∀ r, (p0 :: restP).head? = some r → r.key.isSome = true := by
        intro r hr
        simp only [List.head?_cons, Option.some.injEq] at hr
        rw [← hr, hk0]
        simp
      have hrdisj : ∀ r ∈ p0 :: restP, r.key = none →
          ∀ k ∈ placeholderNames (p0 :: restP), charsDisjoint (getV values k) r.raw = true := by
        intro r hr hrk k hkmem
        apply hdisj2 r (by rw [hp]; exact hr) hrk
        rw [hknames, hnames0]
        exact hkmem
      obtain ⟨dres, hres, hlookS, hlookN⟩ := parseLoop_inverts values (p0 :: restP) []
        hclean2 halt2 hheadr hrdisj
      refine ⟨dres, hres, ?_, by rw [hlookN]; rfl⟩
      intro k
      rw [hlookS k]
      by_cases hm : k ∈ t.keys
      · have hmn : k ∈ placeholderNames (p0 :: restP) := by
          rw [← hnames0, ← hknames]
          exact hm
        rw [if_pos hmn, if_pos hm, getV_spec (hcomp2 k hm)]
      · have hmn : k ∉ placeholderNames (p0 :: restP) := by
          rw [← hnames0, ← hknames]
          exact hm
        rw [if_neg hmn, if_neg hm]
        rfl

theorem find?_brack_none {keys : List Str} {c : Char} (hc : ¬ c = lb) (s : Str) :
    keys.find? (fun k => (brack k).isPrefixOf (c :: s)) = none := by
  apply List.find?_eq_none.mpr
  intro k _
  have hb : brack k = lb :: (k ++ [rb]) := rfl
  rw [hb, isPrefixOf_head_ne (fun he => hc he.symm)]
  simp

theorem find?_brack_some {keys : List Str} {k2 : Str}
    (hbf : ∀ k ∈ keys, braceFree k = true) (hk2 : braceFree k2 = true) (s : Str) :
    k2 ∈ keys →
    keys.find? (fun k => (brack k).isPrefixOf (brack k2 ++ s)) = some k2 := by
  induction keys with
  | nil => intro h; simp at h
  | cons k0 rest ih =>
    intro hmem
    by_cases h0 : k0 = k2
    · subst h0
      rw [List.find?_cons]
      have : (brack k0).isPrefixOf (brack k0 ++ s) = true := isPrefixOf_append_self _ _
      simp [this]
    · have hpred : (brack k0).isPrefixOf (brack k2 ++ s) = false := by
        by_contra hcon
        apply h0
        have htrue : (brack k0).isPrefixOf (brack k2 ++ s) = true := by
          cases h : (brack k0).isPrefixOf (brack k2 ++ s) with
          | true => rfl
          | false => exact absurd h hcon
        have hb0 : brack k0 = lb :: (k0 ++ [rb]) := rfl
        have hb2 : brack k2 ++ s = lb :: (k2 ++ rb :: s) := by simp [brack]
        rw [hb0, hb2] at htrue
        simp only [List.isPrefixOf, Bool.and_eq_true, beq_iff_eq] at htrue
        exact prefix_unique_rb (hbf k0 (List.mem_cons_self _ _)) hk2 htrue.2
      rw [List.find?_cons]
      simp only [hpred]
      apply ih (fun k hk => hbf k (List.mem_cons_of_mem k0 hk))
      rcases List.mem_cons.mp hmem with h | h
      · exact absurd h.symm h0
      · exact h

theorem substAll_walk (values : List (Str × Str)) (keys : List Str) :
    ∀ (a s : Str), braceFree a = true →
      substAll values keys (a ++ s) = a ++ substAll values keys s := by
  intro a
  induction a with
  | nil => intro s _; simp
  | cons c a2 ih =>
    intro s ha
    have hc := braceFree_mem ha (List.mem_cons_self c a2)
    have ha2 : braceFree a2 = true := by
      simp only [braceFree, List.all_cons, Bool.and_eq_true] at ha
      exact ha.2
    rw [List.cons_append, substAll_unfold, find?_brack_none hc.1]
    rw [ih s ha2, List.cons_append]

theorem substAll_token (values : List (Str × Str)) (keys : List Str) {k2 : Str}
    (hbf : ∀ k ∈ keys, braceFree k = true) (hk2 : braceFree k2 = true)
    (hmem : k2 ∈ keys) (s : Str) :
    substAll values keys (brack k2 ++ s) = getV values k2 ++ substAll values keys s := by
  have hb2 : brack k2 ++ s = lb :: (k2 ++ rb :: s) := by simp [brack]
  rw [hb2, substAll_unfold]
  have hfind := find?_brack_some hbf hk2 s hmem
  rw [hb2] at hfind
  simp only [hfind]
  have hdrop : (lb :: (k2 ++ rb :: s)).drop (brack k2).length = s := by
    rw [← hb2]
    exact List.drop_left _ _
  rw [hdrop]

/-- On a clean template text, the simultaneous substitution the spec
describes agrees with part-wise substitution. -/
theorem substAll_eq_substParts (values : List (Str × Str)) (keys : List Str)
    (hbf : ∀ k ∈ keys, braceFree k = true) :
    ∀ ps : List TextCompletionsMappingTemplatePart,
      (∀ p ∈ ps, cleanPart p = true) →
      (∀ k ∈ placeholderNames ps, k ∈ keys) →
      substAll values keys (concatRaw ps) = substParts values ps := by
  intro ps
  induction ps with
  | nil =>
    intro _ _
    have h0 : concatRaw [] = ([] : Str) := by simp [concatRaw]
    rw [h0, substAll_nil]
    simp [substParts]
  | cons p rest ih =>
    intro hclean hnames
    have hp := hclean p (List.mem_cons_self p rest)
    have hrest : ∀ q ∈ rest, cleanPart q = true :=
      fun q hq => hclean q (List.mem_cons_of_mem p hq)
    have hcr : concatRaw (p :: rest) = p.raw ++ concatRaw rest := by simp [concatRaw]
    cases hkey : p.key with
    | none =>
      have hcl := cleanPart_none hp hkey
      rw [hcr, substAll_walk values keys p.raw (concatRaw rest) hcl.2]
      rw [ih hrest (fun k hk => hnames k (by rw [placeholderNames_cons_none hkey]; exact hk))]
      simp [substParts, hkey]
    | some k =>
      have hcl := cleanPart_some hp hkey
      have hmem : k ∈ keys := hnames k (by
        rw [placeholderNames_cons_some hkey]
        exact List.mem_cons_self _ _)
      rw [hcr, hcl.1, substAll_token values keys hbf hcl.2 hmem]
      rw [ih hrest (fun k2 hk2 => hnames k2 (by
        rw [placeholderNames_cons_some hkey]
        exact List.mem_cons_of_mem k hk2))]
      simp [substParts, hkey]

theorem fillLoop_missing (values : List (Str × Str)) (raw : Str) :
    ∀ (ks : List Str) (filled : Str),
      (∃ k, k ∈ ks ∧ dcontains values k = false) →
      ∃ k, k ∈ ks ∧ dcontains values k = false ∧
        fillLoop raw values filled ks = Except.error (msgMissingKey k raw) := by
  intro ks
  induction ks with
  | nil =>
    intro filled h
    obtain ⟨k, hk, _⟩ := h
    simp at hk
  | cons k0 rest ih =>
    intro filled h
    by_cases h0 : dcontains values k0 = true
    · obtain ⟨k, hk, hkc⟩ := h
      have hkrest : k ∈ rest := by
        rcases List.mem_cons.mp hk with he | he
        · subst he
          rw [h0] at hkc
          simp at hkc
        · exact he
      obtain ⟨k2, hk2, hk2c, hres⟩ :=
        ih (replaceAll (brack k0) (getV values k0) filled) ⟨k, hkrest, hkc⟩
      refine ⟨k2, List.mem_cons_of_mem k0 hk2, hk2c, ?_⟩
      rw [fillLoop, if_pos h0]
      exact hres
    · refine ⟨k0, List.mem_cons_self _ _, by simpa using h0, ?_⟩
      rw [fillLoop, if_neg h0]

/-- C1, amended: the counterexample below shows the claim's hypotheses do
not prevent an earlier accidental occurrence of a following literal inside
the filled text, so the round trip needs the stronger provisos recorded
here: the template is clean (no stray braces outside its parts, placeholder
interiors brace-free), the values are brace-free, share no character with
any literal part, and a value at a template boundary is nonempty with no
whitespace at the trimmed end. -/
theorem C1_parse_fill_roundtrip_amended (raw0 : Str)
    (t : TextCompletionsMappingTemplate) (values : List (Str × Str))
    (hload : TextCompletionsMappingTemplate.load raw0 = Except.ok t)
    (hct : cleanTemplate t = true)
    (hkne : t.keys ≠ [])
    (hcomp : valuesComplete t values = true)
    (hvbf : valuesBraceFree t values = true)
    (hdisj : valuesLiteralsDisjoint t values = true)
    (hfront : boundaryFrontOK t values = true)
    (hback : boundaryBackOK t values = true) :
    ∃ f, t.fill values = Except.ok f ∧
    ∃ d, t.parse f = Except.ok d ∧
      (∀ k : Str, dlookup d (some k) =
        if k ∈ t.keys then dlookup values k else none) ∧
      dlookup d none = none :=
  template_roundtrip values hload hct hcomp hvbf hdisj hfront hback

/-- The template of the C1 counterexample: a literal `aa` between two
placeholders. -/
def c1raw : Str := [lb] ++ "k".toList ++ [rb] ++ "aa".toList ++ [lb] ++ "m".toList ++ [rb]

/-- Values for the C1 counterexample: `xa` ends with a character of the
literal `aa`, although it does not contain `aa` itself. -/
def c1values : List (Str × Str) := [("k".toList, "xa".toList), ("m".toList, "z".toList)]

/-- The loaded C1 counterexample template. -/
def c1t : TextCompletionsMappingTemplate := pyGetOk (TextCompletionsMappingTemplate.load c1raw)

/-- C1 counterexample: the claim's hypotheses hold — the template has
placeholders, all keys have values, no value contains any literal separator
of the template nor any key's bracketed form — yet the filled text `xaaaz`
parses back to `k = x, m = az`, not the original values: the literal `aa`
is found one position early, inside `xa ++ aa`. -/
theorem C1_counterexample :
    TextCompletionsMappingTemplate.load c1raw = Except.ok c1t ∧
    c1t.keys ≠ [] ∧
    valuesComplete c1t c1values = true ∧
    (∀ p ∈ c1t.parts, p.key = none → ∀ k ∈ c1t.keys,
      containsSubstr (getV c1values k) p.raw = false) ∧
    (∀ k ∈ c1t.keys, ∀ k2 ∈ c1t.keys,
      containsSubstr (getV c1values k) (brack k2) = false) ∧
    c1t.fill c1values = Except.ok ("xaaaz".toList) ∧
    c1t.parse ("xaaaz".toList) =
      Except.ok [(some ("k".toList), "x".toList), (some ("m".toList), "az".toList)] ∧
    dlookup c1values ("k".toList) = some ("xa".toList) ∧
    ¬ ("x".toList : Str) = "xa".toList := by
  decide

/-- Witness for the amended C1 at a concrete clean template and values. -/
def c1wraw : Str := "x".toList ++ [lb] ++ "k".toList ++ [rb] ++ "y".toList ++ [lb] ++ "m".toList ++ [rb]

/-- Witness values for the amended C1. -/
def c1wvalues : List (Str × Str) := [("k".toList, "A".toList), ("m".toList, "B".toList)]

/-- Witness template for the amended C1. -/
def c1wt : TextCompletionsMappingTemplate := pyGetOk (TextCompletionsMappingTemplate.load c1wraw)

theorem C1_parse_fill_roundtrip_amended_witness :
    ∃ f, c1wt.fill c1wvalues = Except.ok f ∧
    ∃ d, c1wt.parse f = Except.ok d ∧
      (∀ k : Str, dlookup d (some k) =
        if k ∈ c1wt.keys then dlookup c1wvalues k else none) ∧
      dlookup d none = none :=
  C1_parse_fill_roundtrip_amended c1wraw c1wt c1wvalues (by decide) (by decide)
    (by decide) (by decide) (by decide) (by decide) (by decide) (by decide)

/-- C3, amended: `parse` trims the input into `cur_text` but performs the
leading-literal check against the original, untrimmed text
(`text.startswith` in the source); it consumes the literal from the trimmed
text whenever the untrimmed text starts with the literal's raw form, and
fails with the parse error whenever it does not. -/
theorem C3_leading_literal_check_amended (t : TextCompletionsMappingTemplate)
    (p0 : TextCompletionsMappingTemplatePart)
    (restP : List TextCompletionsMappingTemplatePart) (text : Str)
    (hps : t.parts = p0 :: restP) (hk0 : p0.key = none) :
    (p0.raw.isPrefixOf text = false →
      t.parse text = Except.error (msgExpectedStart p0.raw text)) ∧
    (p0.raw.isPrefixOf text = true →
      t.parse text = parseLoop restP ((pyStrip text).drop p0.raw.length) []) := by
  constructor
  · intro h
    rw [parse_cons hps]
    simp only [hk0, Option.isNone_none, if_true]
    rw [if_neg (by simp [h])]
  · intro h
    rw [parse_cons hps]
    simp only [hk0, Option.isNone_none, if_true]
    rw [if_pos h]

/-- The C3 counterexample template, a leading literal then a placeholder. -/
def c3raw : Str := "a".toList ++ [lb] ++ "k".toList ++ [rb]

/-- The loaded C3 counterexample template. -/
def c3t : TextCompletionsMappingTemplate := pyGetOk (TextCompletionsMappingTemplate.load c3raw)

/-- C3 counterexample: for the input text with a leading space, the trimmed
text starts with the leading literal `a`, so the claim says the literal is
consumed; the code instead checks the untrimmed text and raises. -/
theorem C3_counterexample :
    TextCompletionsMappingTemplate.load c3raw = Except.ok c3t ∧
    c3t.parts.head? = some ⟨"a".toList, none⟩ ∧
    ("a".toList).isPrefixOf (pyStrip (" ax".toList)) = true ∧
    c3t.parse (" ax".toList) =
      Except.error (msgExpectedStart ("a".toList) (" ax".toList)) := by
  decide

theorem C3_leading_literal_check_amended_witness :
    c3t.parse (" ax".toList) =
      Except.error (msgExpectedStart ("a".toList) (" ax".toList)) ∧
    c3t.parse ("ax".toList) =
      parseLoop [⟨[lb] ++ "k".toList ++ [rb], some ("k".toList)⟩]
        ((pyStrip ("ax".toList)).drop ("a".toList).length) [] :=
  ⟨(C3_leading_literal_check_amended c3t ⟨"a".toList, none⟩
      [⟨[lb] ++ "k".toList ++ [rb], some ("k".toList)⟩] (" ax".toList)
      (by decide) (by decide)).1 (by decide),
    (C3_leading_literal_check_amended c3t ⟨"a".toList, none⟩
      [⟨[lb] ++ "k".toList ++ [rb], some ("k".toList)⟩] ("ax".toList)
      (by decide) (by decide)).2 (by decide)⟩

/-- C4, amended: on a clean loaded template, `fill` raises the missing-key
error naming an absent key and the raw template whenever some key lacks a
value; when all keys are present and — stronger than the claim's
hypothesis, as the counterexample forces — every value is brace-free, the
result is the raw template with every occurrence of each braced key
simultaneously replaced by its value (`substAll`). -/
theorem C4_fill_behavior_amended (raw0 : Str) (t : TextCompletionsMappingTemplate)
    (values : List (Str × Str))
    (hload : TextCompletionsMappingTemplate.load raw0 = Except.ok t)
    (hct : cleanTemplate t = true) :
    ((∃ k, k ∈ t.keys ∧ dcontains values k = false) →
      ∃ k, k ∈ t.keys ∧ dcontains values k = false ∧
        t.fill values = Except.error (msgMissingKey k t.raw)) ∧
    (valuesComplete t values = true → valuesBraceFree t values = true →
      t.fill values = Except.ok (substAll values t.keys t.raw)) := by
  obtain ⟨hraw, hparts, hkeys, halt, hne⟩ := load_ok_spec hload
  obtain ⟨hclean, hconcat⟩ := cleanTemplate_spec hct
  constructor
  · intro h
    exact fillLoop_missing values t.raw t.keys t.raw h
  · intro hcomp hvbf
    rw [fill_eq_substParts values hload hct hcomp hvbf]
    have hknames := keys_iff_names hload hct
    have hkbf : ∀ k ∈ t.keys, braceFree k = true := by
      intro k hk
      rcases List.mem_filterMap.mp ((hknames k).mp hk) with ⟨p, hp, hpk⟩
      exact (cleanPart_some (hclean p hp) hpk).2
    rw [hconcat,
      substAll_eq_substParts values t.keys hkbf t.parts hclean
        (fun k hk => (hknames k).mpr hk)]

/-- The C4 counterexample template: placeholder, stray close brace, space,
placeholder — every part is clean and the raw text is the concatenation of
the parts (the stray brace lives inside the literal part). -/
def c4raw : Str := [lb] ++ "a".toList ++ [rb] ++ [rb] ++ " ".toList ++ [lb] ++ "b".toList ++ [rb]

/-- C4 counterexample values: the value of `a` ends in an unclosed braced
prefix of the other key. -/
def c4values : List (Str × Str) := [("a".toList, [lb] ++ "b".toList), ("b".toList, "v".toList)]

/-- The loaded C4 counterexample template. -/
def c4t : TextCompletionsMappingTemplate := pyGetOk (TextCompletionsMappingTemplate.load c4raw)

/-- C4 counterexample: all keys have values and no value contains another
key's bracketed form, yet sequential replacement lets the braced form of
`b` arise across a boundary — `fill` returns `v v`, not the simultaneous
substitution `\x7bb\x7d v` of the raw template. -/
theorem C4_counterexample :
    TextCompletionsMappingTemplate.load c4raw = Except.ok c4t ∧
    valuesComplete c4t c4values = true ∧
    (∀ k ∈ c4t.keys, ∀ k2 ∈ c4t.keys,
      containsSubstr (getV c4values k) (brack k2) = false) ∧
    c4t.fill c4values = Except.ok ("v v".toList) ∧
    substAll c4values c4t.keys c4t.raw = [lb] ++ "b".toList ++ [rb] ++ " v".toList ∧
    ¬ ("v v".toList : Str) = [lb] ++ "b".toList ++ [rb] ++ " v".toList := by
  decide

/-- Witness inputs for the amended C4. -/
def c4wraw : Str := "x".toList ++ [lb] ++ "k".toList ++ [rb] ++ "y".toList ++ [lb] ++ "m".toList ++ [rb]

/-- Witness values for the amended C4 (complete case). -/
def c4wvalues : List (Str × Str) := [("k".toList, "A".toList), ("m".toList, "B".toList)]

/-- Witness template for the amended C4. -/
def c4wt : TextCompletionsMappingTemplate := pyGetOk (TextCompletionsMappingTemplate.load c4wraw)

theorem C4_fill_behavior_amended_witness :
    (∃ k, k ∈ c4wt.keys ∧ dcontains ([] : List (Str × Str)) k = false ∧
      c4wt.fill [] = Except.error (msgMissingKey k c4wt.raw)) ∧
    c4wt.fill c4wvalues = Except.ok (substAll c4wvalues c4wt.keys c4wt.raw) :=
  ⟨(C4_fill_behavior_amended c4wraw c4wt [] (by decide) (by decide)).1
      ⟨"k".toList, by decide, by decide⟩,
    (C4_fill_behavior_amended c4wraw c4wt c4wvalues (by decide) (by decide)).2
      (by decide) (by decide)⟩

/-- C2: when the completion fails to parse against the output template and a
default is supplied, `map` absorbs the failure into an outcome carrying the
raw completion, every output key mapped to the default, a false success
flag and the parse error text; with no default the parse error propagates. -/
theorem C2_map_parse_failure (defn : TextCompletionsMappingDefinition)
    (gpt_run : Str → Str) (input : List (Str × Str)) (dflt : Str)
    (msg err : Str)
    (hfill : defn.input_template.fill input = Except.ok msg)
    (hparse : defn.output_template.parse (gpt_run msg) = Except.error err) :
    (∃ o, ChatGPTTextCompletionsMapping.map defn gpt_run input (some dflt) =
        Except.ok o ∧
      o.raw = gpt_run msg ∧ o.success = false ∧ o.error_message = some err ∧
      ∀ k ∈ defn.output_template.keys, dlookup o.parsed (some k) = some dflt) ∧
    ChatGPTTextCompletionsMapping.map defn gpt_run input none = Except.error err := by
  constructor
  · refine ⟨⟨gpt_run msg,
      defn.output_template.keys.foldl (fun d k => dset d (some k) dflt) [],
      false, some err⟩, ?_, rfl, rfl, rfl, ?_⟩
    · unfold ChatGPTTextCompletionsMapping.map
      rw [hfill]
      simp only [hparse]
    · intro k hk
      rw [dlookup_foldl_dset dflt defn.output_template.keys [] (some k)]
      simp [hk]
  · unfold ChatGPTTextCompletionsMapping.map
    rw [hfill]
    simp only [hparse]

/-- Witness input template for C2. -/
def c2int : TextCompletionsMappingTemplate :=
  pyGetOk (TextCompletionsMappingTemplate.load ([lb] ++ "q".toList ++ [rb]))

/-- Witness output template for C2. -/
def c2outt : TextCompletionsMappingTemplate :=
  pyGetOk (TextCompletionsMappingTemplate.load ("R: ".toList ++ [lb] ++ "ans".toList ++ [rb]))

/-- Witness definition for C2. -/
def c2defn : TextCompletionsMappingDefinition := ⟨"g".toList, c2int, c2outt, [], none⟩

theorem C2_map_parse_failure_witness :
    (∃ o, ChatGPTTextCompletionsMapping.map c2defn (fun _ => "garbage".toList)
        [("q".toList, "hi".toList)] (some ("D".toList)) = Except.ok o ∧
      o.raw = (fun (_ : Str) => "garbage".toList) ("hi".toList) ∧ o.success = false ∧
      o.error_message = some (msgExpectedStart ("R: ".toList) ("garbage".toList)) ∧
      ∀ k ∈ c2defn.output_template.keys, dlookup o.parsed (some k) = some ("D".toList)) ∧
    ChatGPTTextCompletionsMapping.map c2defn (fun _ => "garbage".toList)
      [("q".toList, "hi".toList)] none =
      Except.error (msgExpectedStart ("R: ".toList) ("garbage".toList)) :=
  C2_map_parse_failure c2defn (fun _ => "garbage".toList) [("q".toList, "hi".toList)]
    ("D".toList) ("hi".toList) (msgExpectedStart ("R: ".toList) ("garbage".toList))
    (by decide) (by decide)

/-- C5: definition loading raises the overlap validation error exactly when
the input and output templates share more than one key; with an overlap of
zero or one keys this check raises nothing and loading proceeds to the
examples. -/
theorem C5_key_overlap_validation (g i o : Str) (corpus : List Record)
    (it ot : TextCompletionsMappingTemplate)
    (hi : TextCompletionsMappingTemplate.load i = Except.ok it)
    (ho : TextCompletionsMappingTemplate.load o = Except.ok ot) :
    (setInterCount it.keys ot.keys > 1 →
      TextCompletionsMappingDefinition.load_from_directory g i o corpus =
        Except.error msgOverlap) ∧
    (setInterCount it.keys ot.keys ≤ 1 →
      TextCompletionsMappingDefinition.load_from_directory g i o corpus =
        (match load_examples corpus it.keys ot.keys with
          | Except.error e => Except.error e
          | Except.ok exs => Except.ok ⟨pyStrip g, it, ot, exs, none⟩)) := by
  constructor
  · intro hgt
    unfold TextCompletionsMappingDefinition.load_from_directory
    rw [hi]
    simp only [ho]
    rw [if_pos hgt]
  · intro hle
    unfold TextCompletionsMappingDefinition.load_from_directory
    rw [hi]
    simp only [ho]
    rw [if_neg (by omega)]

/-- Witness templates for C5: one pair with two shared keys, one pair with
none. -/
def c5it2 : TextCompletionsMappingTemplate :=
  pyGetOk (TextCompletionsMappingTemplate.load
    ([lb] ++ "x".toList ++ [rb] ++ "a".toList ++ [lb] ++ "y".toList ++ [rb]))

/-- C5 witness output template sharing both keys with `c5it2`. -/
def c5ot2 : TextCompletionsMappingTemplate :=
  pyGetOk (TextCompletionsMappingTemplate.load
    ([lb] ++ "x".toList ++ [rb] ++ "b".toList ++ [lb] ++ "y".toList ++ [rb]))

/-- C5 witness output template sharing no key with `c5it2`. -/
def c5ot0 : TextCompletionsMappingTemplate :=
  pyGetOk (TextCompletionsMappingTemplate.load ("b".toList ++ [lb] ++ "z".toList ++ [rb]))

theorem C5_key_overlap_validation_witness :
    TextCompletionsMappingDefinition.load_from_directory ("g".toList)
      ([lb] ++ "x".toList ++ [rb] ++ "a".toList ++ [lb] ++ "y".toList ++ [rb])
      ([lb] ++ "x".toList ++ [rb] ++ "b".toList ++ [lb] ++ "y".toList ++ [rb]) [] =
      Except.error msgOverlap ∧
    TextCompletionsMappingDefinition.load_from_directory ("g".toList)
      ([lb] ++ "x".toList ++ [rb] ++ "a".toList ++ [lb] ++ "y".toList ++ [rb])
      ("b".toList ++ [lb] ++ "z".toList ++ [rb]) [] =
      (match load_examples [] c5it2.keys c5ot0.keys with
        | Except.error e => Except.error e
        | Except.ok exs => Except.ok ⟨pyStrip ("g".toList), c5it2, c5ot0, exs, none⟩) :=
  ⟨(C5_key_overlap_validation ("g".toList) _ _ [] c5it2 c5ot2
      (by decide) (by decide)).1 (by decide),
    (C5_key_overlap_validation ("g".toList) _ _ [] c5it2 c5ot0
      (by decide) (by decide)).2 (by decide)⟩

/-- C6: `join` raises the schema-conflict error whenever the field sets
share a name; with disjoint fields it raises the row-count error whenever
the record counts differ; and with disjoint fields and equal counts the
result concatenates the field lists and concatenates the records
positionally. -/
theorem C6_join_behavior (c1 c2 : SchematizedTextCorpus) :
    (c1.fields.any (fun f => f ∈ c2.fields) = true →
      c1.join c2 = Except.error msgJoinConflict) ∧
    (c1.fields.any (fun f => f ∈ c2.fields) = false →
      c1.examples.length ≠ c2.examples.length →
      c1.join c2 = Except.error msgJoinRows) ∧
    (c1.fields.any (fun f => f ∈ c2.fields) = false →
      c1.examples.length = c2.examples.length →
      ∃ c, c1.join c2 = Except.ok c ∧
        c.fields = c1.fields ++ c2.fields ∧
        c.examples.length = c1.examples.length ∧
        ∀ i (h1 : i < c1.examples.length) (h2 : i < c2.examples.length)
          (h : i < c.examples.length),
          c.examples.get ⟨i, h⟩ =
            exampleAdd (c1.examples.get ⟨i, h1⟩) (c2.examples.get ⟨i, h2⟩)) := by
  refine ⟨?_, ?_, ?_⟩
  · intro hov
    unfold SchematizedTextCorpus.join
    rw [if_pos hov]
  · intro hov hlen
    unfold SchematizedTextCorpus.join
    rw [if_neg (by simp [hov]), if_pos hlen]
  · intro hov hlen
    refine ⟨⟨c1.fields ++ c2.fields,
      (List.zip c1.examples c2.examples).map (fun p => exampleAdd p.1 p.2)⟩, ?_, rfl, ?_, ?_⟩
    · unfold SchematizedTextCorpus.join
      rw [if_neg (by simp [hov]), if_neg (by omega)]
    · simp [List.length_zip, hlen]
    · intro i h1 h2 h
      simp only [List.get_eq_getElem, List.getElem_map, List.getElem_zip]

/-- C6 witness corpora. -/
def c6a : SchematizedTextCorpus :=
  ⟨["f".toList], [[(some ("f".toList), "1".toList)]]⟩

/-- Second C6 witness corpus, disjoint fields, one row. -/
def c6b : SchematizedTextCorpus :=
  ⟨["g".toList], [[(some ("g".toList), "2".toList)]]⟩

/-- Third C6 witness corpus, sharing a field with `c6a`. -/
def c6c : SchematizedTextCorpus :=
  ⟨["f".toList], [[(some ("f".toList), "3".toList)]]⟩

/-- Fourth C6 witness corpus, disjoint fields, zero rows. -/
def c6d : SchematizedTextCorpus := ⟨["h".toList], []⟩

theorem C6_join_behavior_witness :
    c6a.join c6c = Except.error msgJoinConflict ∧
    c6a.join c6d = Except.error msgJoinRows ∧
    (∃ c, c6a.join c6b = Except.ok c ∧
      c.fields = c6a.fields ++ c6b.fields ∧
      c.examples.length = c6a.examples.length ∧
      ∀ i (h1 : i < c6a.examples.length) (h2 : i < c6b.examples.length)
        (h : i < c.examples.length),
        c.examples.get ⟨i, h⟩ =
          exampleAdd (c6a.examples.get ⟨i, h1⟩) (c6b.examples.get ⟨i, h2⟩)) :=
  ⟨(C6_join_behavior c6a c6c).1 (by decide),
    (C6_join_behavior c6a c6d).2.1 (by decide) (by decide),
    (C6_join_behavior c6a c6b).2.2 (by decide) (by decide)⟩

/-- C7: loading fails for every raw template whose trimmed text tokenizes
to an empty part list (the empty template included) and for every raw
template whose tokens contain two adjacent parts of the same kind (such as
two adjacent placeholders). -/
theorem C7_load_failures (raw : Str)
    (h : tokenize (pyStrip raw) = [] ∨ alternatesOK (tokenize (pyStrip raw)) = false) :
    ∃ e, TextCompletionsMappingTemplate.load raw = Except.error e := by
  have h2 : TextCompletionsMappingTemplate.load raw =
      (match parse_template_into_parts (pyStrip raw) with
        | Except.error e => Except.error e
        | Except.ok ps =>
          Except.ok ⟨pyStrip raw, ps, parse_template_keys (pyStrip raw)⟩) := rfl
  rcases h with h1 | h1
  · by_cases halt : alternatesOK (tokenize (pyStrip raw)) = true
    · refine ⟨"Template cannot be empty.".toList, ?_⟩
      rw [h2]
      unfold parse_template_into_parts
      rw [if_pos halt, if_pos (by simp [h1])]
    · refine ⟨"Keys and non-keys must alternate within a template.".toList, ?_⟩
      rw [h2]
      unfold parse_template_into_parts
      rw [if_neg halt]
  · refine ⟨"Keys and non-keys must alternate within a template.".toList, ?_⟩
    rw [h2]
    unfold parse_template_into_parts
    rw [if_neg (by simp [h1])]

theorem C7_load_failures_witness :
    (∃ e, TextCompletionsMappingTemplate.load [] = Except.error e) ∧
    (∃ e, TextCompletionsMappingTemplate.load
      ([lb] ++ "a".toList ++ [rb] ++ [lb] ++ "b".toList ++ [rb]) = Except.error e) :=
  ⟨C7_load_failures [] (by decide), C7_load_failures _ (Or.inr (by decide))⟩

/-- C9: record concatenation is total and merges right-over-left: the
result's field set is the union of the operands' field sets, any field of
the right operand keeps the right operand's value, and a field absent from
the right operand keeps the left operand's value. -/
theorem C9_record_add (a b : Record) (hnd : (b.map Prod.fst).Nodup) :
    (∀ x : Option Str, dcontains (exampleAdd a b) x = (dcontains a x || dcontains b x)) ∧
    (∀ (x : Option Str) (v : Str), dlookup b x = some v →
      dlookup (exampleAdd a b) x = some v) ∧
    (∀ x : Option Str, dlookup b x = none →
      dlookup (exampleAdd a b) x = dlookup a x) :=
  ⟨fun x => dcontains_exampleAdd a b x,
    fun _ _ h => dlookup_exampleAdd_of_some hnd h,
    fun _ h => dlookup_exampleAdd_of_none h⟩

/-- C9 witness records with an overlapping field. -/
def c9a : Record := [(some ("f".toList), "1".toList), (some ("g".toList), "2".toList)]

/-- The right operand of the C9 witness. -/
def c9b : Record := [(some ("f".toList), "9".toList)]

theorem C9_record_add_witness :
    dcontains (exampleAdd c9a c9b) (some ("g".toList)) =
      (dcontains c9a (some ("g".toList)) || dcontains c9b (some ("g".toList))) ∧
    dlookup (exampleAdd c9a c9b) (some ("f".toList)) = some ("9".toList) ∧
    dlookup (exampleAdd c9a c9b) (some ("g".toList)) = dlookup c9a (some ("g".toList)) :=
  ⟨(C9_record_add c9a c9b (by decide)).1 (some ("g".toList)),
    (C9_record_add c9a c9b (by decide)).2.1 (some ("f".toList)) ("9".toList) (by decide),
    (C9_record_add c9a c9b (by decide)).2.2 (some ("g".toList)) (by decide)⟩

theorem noEdgeLb_spec {k : Str} (h : noEdgeLb k = true) :
    (∀ c, k.head? = some c → ¬ c = lb) ∧ (∀ c, k.getLast? = some c → ¬ c = lb) := by
  unfold noEdgeLb at h
  rw [Bool.and_eq_true] at h
  constructor
  · intro c hc
    have h1 := h.1
    rw [hc] at h1
    simpa using h1
  · intro c hc
    have h1 := h.2
    rw [hc] at h1
    simpa using h1

/-- Stripping braces from a placeholder token recovers exactly its interior,
provided the interior does not begin or end with an opening brace. -/
theorem token_strip {k : Str} (hne : noEdgeLb k = true) (hrb : rb ∉ k) :
    stripBraces (lb :: k ++ [rb]) = k := by
  obtain ⟨hh, hl⟩ := noEdgeLb_spec hne
  cases k with
  | nil => decide
  | cons c k2 =>
    have hcl : ¬ c = lb := hh c rfl
    have hcr : ¬ c = rb := fun he => hrb (by rw [← he]; exact List.mem_cons_self c k2)
    have hc : isBrace c = false := by simp [isBrace, hcl, hcr]
    unfold stripBraces stripChars
    have hd1 : (lb :: (c :: k2) ++ [rb]).dropWhile isBrace = (c :: k2) ++ [rb] := by
      rw [List.cons_append, List.dropWhile_cons, if_pos (by simp [isBrace]),
        List.cons_append, List.dropWhile_cons, if_neg (by simp [hc])]
    rw [hd1]
    have hrev : ((c :: k2) ++ [rb]).reverse = rb :: (c :: k2).reverse := by
      rw [List.reverse_append]
      rfl
    rw [hrev, List.dropWhile_cons, if_pos (by simp [isBrace])]
    cases hq : (c :: k2).reverse with
    | nil =>
      exfalso
      have : (c :: k2) = [] := by simpa using congrArg List.reverse hq
      simp at this
    | cons d w =>
      have hdlast : (c :: k2).getLast? = some d := by
        rw [← List.head?_reverse, hq]
        rfl
      have hdmem : d ∈ c :: k2 := by
        have h3 : d ∈ (c :: k2).reverse := by rw [hq]; exact List.mem_cons_self d w
        rw [List.mem_reverse] at h3
        exact h3
      have hdl : ¬ d = lb := hl d hdlast
      have hdr : ¬ d = rb := fun he => hrb (by rw [← he]; exact hdmem)
      rw [List.dropWhile_cons, if_neg (by simp [isBrace, hdl, hdr]), ← hq,
        List.reverse_reverse]

theorem braceFree_takeWhile (s : Str) :
    braceFree (s.takeWhile (fun d => !(isBrace d))) = true := by
  induction s with
  | nil => rfl
  | cons c rest ih =>
    rw [List.takeWhile_cons]
    by_cases h : (!(isBrace c)) = true
    · rw [if_pos h]
      simp only [braceFree, List.all_cons, Bool.and_eq_true]
      exact ⟨h, ih⟩
    · rw [if_neg h]
      rfl

/-- Under the edge proviso on interiors, the placeholder names of the token
list are exactly the findall captures. -/
theorem names_of_tokenize :
    ∀ s : Str, (∀ k ∈ findTemplateKeys s, noEdgeLb k = true) →
      placeholderNames (tokenize s) = findTemplateKeys s
  | [] => by
    intro _
    rw [tokenize_nil, findTemplateKeys_nil]
    rfl
  | c :: rest => by
    intro hprov
    rw [tokenize_unfold, findTemplateKeys_unfold]
    by_cases hc1 : c = lb
    · rw [if_pos hc1, if_pos hc1]
      cases hsp : splitAtFirst rb rest with
      | some pr =>
        obtain ⟨before, after⟩ := pr
        dsimp only
        have hmem : before ∈ findTemplateKeys (c :: rest) := by
          rw [findTemplateKeys_unfold, if_pos hc1, hsp]
          exact List.mem_cons_self _ _
        have hrbnot : rb ∉ before := (splitAtFirst_eq_some hsp).2
        have hstrip : stripBraces (lb :: before ++ [rb]) = before :=
          token_strip (hprov before hmem) hrbnot
        have hlen := splitAtFirst_length hsp
        rw [@placeholderNames_cons_some ⟨lb :: before ++ [rb],
          some (stripBraces (lb :: before ++ [rb]))⟩ (stripBraces (lb :: before ++ [rb]))
          rfl (tokenize after)]
        rw [hstrip]
        rw [names_of_tokenize after (fun k hk => hprov k (by
          rw [findTemplateKeys_unfold, if_pos hc1, hsp]
          exact List.mem_cons_of_mem before hk))]
      | none =>
        dsimp only
        exact names_of_tokenize rest (fun k hk => hprov k (by
          rw [findTemplateKeys_unfold, if_pos hc1, hsp]
          exact hk))
    · rw [if_neg hc1, if_neg hc1]
      by_cases hc2 : c = rb
      · rw [if_pos hc2]
        exact names_of_tokenize rest (fun k hk => hprov k (by
          rw [findTemplateKeys_unfold, if_neg hc1]
          exact hk))
      · rw [if_neg hc2]
        rw [@placeholderNames_cons_none ⟨c :: rest.takeWhile (fun d => !(isBrace d)),
          none⟩ rfl (tokenize (rest.dropWhile (fun d => !(isBrace d))))]
        have hsplit2 : findTemplateKeys rest =
            findTemplateKeys (rest.dropWhile (fun d => !(isBrace d))) := by
          conv =>
            left
            rw [← List.takeWhile_append_dropWhile (fun d => !(isBrace d)) rest]
          exact findTemplateKeys_append_braceFree (braceFree_takeWhile rest) _
        rw [hsplit2]
        have hdw := dropWhileLenLe (fun d => !(isBrace d)) rest
        exact names_of_tokenize (rest.dropWhile (fun d => !(isBrace d)))
          (fun k hk => hprov k (by
            rw [findTemplateKeys_unfold, if_neg hc1, hsplit2]
            exact hk))
termination_by s => s.length
decreasing_by
  all_goals simp only [List.length_cons]
  all_goals first
    | omega
    | (have h0 := splitAtFirst_length hsp; omega)
    | (have h1 := dropWhileLenLe (fun d => !(isBrace d)) rest; omega)

theorem alternatesOK_noAdjacent :
    ∀ ps : List TextCompletionsMappingTemplatePart,
      alternatesOK ps = true → noAdjacentSameKind ps := by
  intro ps
  induction ps with
  | nil =>
    intro _ i hi
    simp at hi
  | cons p rest ih =>
    intro h i hi
    cases rest with
    | nil => simp at hi
    | cons q rest2 =>
      cases i with
      | zero =>
        have := alternatesOK_pair h
        simpa using this
      | succ j =>
        have hj : j + 1 < (q :: rest2).length := by
          simp only [List.length_cons] at hi ⊢
          omega
        have := ih (alternatesOK_tail h) j hj
        simpa using this

/-- C8, amended: every loaded template has a nonempty part list whose parts
never place two of the same kind adjacently, and its `keys` field is free of
duplicates; provided no placeholder interior begins or ends with an opening
brace (the counterexample shows that otherwise the stripped part name and
the findall capture disagree), `keys` is exactly the first-occurrence
deduplication of the parts' placeholder names. -/
theorem C8_template_invariants (raw0 : Str) (t : TextCompletionsMappingTemplate)
    (hload : TextCompletionsMappingTemplate.load raw0 = Except.ok t) :
    t.parts ≠ [] ∧ noAdjacentSameKind t.parts ∧ t.keys.Nodup ∧
      (interiorsOK raw0 = true →
        t.keys = uniqueKeysAux [] (placeholderNames t.parts)) := by
  obtain ⟨hraw, hparts, hkeys, halt, hne⟩ := load_ok_spec hload
  refine ⟨hne, alternatesOK_noAdjacent t.parts halt, ?_, ?_⟩
  · rw [hkeys, parse_template_keys]
    exact nodup_uniqueKeysAux _ [] List.nodup_nil
  · intro hint
    rw [hkeys, parse_template_keys, hparts]
    rw [names_of_tokenize (pyStrip raw0) (by
      intro k hk
      simp only [interiorsOK, List.all_eq_true] at hint
      exact hint k hk)]

/-- The C8 counterexample template: a placeholder token whose interior
begins with an opening brace. -/
def c8raw : Str := [lb, lb] ++ "a".toList ++ [rb]

/-- The loaded C8 counterexample template. -/
def c8t : TextCompletionsMappingTemplate := pyGetOk (TextCompletionsMappingTemplate.load c8raw)

/-- C8 counterexample: loading succeeds, the single placeholder part is
named `a` (braces stripped from both ends of the token), but `keys` holds
the findall capture which still carries the inner opening brace — so `keys`
is not the first-occurrence list of the parts' placeholder names. -/
theorem C8_counterexample :
    TextCompletionsMappingTemplate.load c8raw = Except.ok c8t ∧
    placeholderNames c8t.parts = ["a".toList] ∧
    c8t.keys = [[lb, Char.ofNat 97]] ∧
    ¬ c8t.keys = uniqueKeysAux [] (placeholderNames c8t.parts) := by
  decide

/-- Witness template text for C8. -/
def c8wraw : Str := "u".toList ++ [lb] ++ "k".toList ++ [rb] ++ "v".toList

/-- The loaded C8 witness template. -/
def c8wt : TextCompletionsMappingTemplate := pyGetOk (TextCompletionsMappingTemplate.load c8wraw)

theorem C8_template_invariants_witness :
    c8wt.parts ≠ [] ∧ noAdjacentSameKind c8wt.parts ∧ c8wt.keys.Nodup ∧
      (interiorsOK c8wraw = true →
        c8wt.keys = uniqueKeysAux [] (placeholderNames c8wt.parts)) :=
  C8_template_invariants c8wraw c8wt (by decide)

theorem debugRecord_shape (sF eF rF : Str) (o : TextCompletionsMappingOutput)
    (h1 : ¬ sF = eF) (h2 : ¬ sF = rF) (h3 : ¬ eF = rF) :
    debugRecord sF eF rF o =
      [(some sF, pyStrBool o.success), (some eF, pyStrOptStr o.error_message),
        (some rF, o.raw)] := by
  unfold debugRecord
  have e1 : dset ([] : Record) (some sF) (pyStrBool o.success) =
      [(some sF, pyStrBool o.success)] := by
    simp [dset, dcontains, dlookup]
  rw [e1]
  have e2 : dset [(some sF, pyStrBool o.success)] (some eF) (pyStrOptStr o.error_message) =
      [(some sF, pyStrBool o.success), (some eF, pyStrOptStr o.error_message)] := by
    have hc : dcontains [(some sF, pyStrBool o.success)] (some eF) = false := by
      simp [dcontains, dlookup, h1]
    simp [dset, hc]
  rw [e2]
  have hc3 : dcontains [(some sF, pyStrBool o.success),
      (some eF, pyStrOptStr o.error_message)] (some rF) = false := by
    simp [dcontains, dlookup, h2, h3]
  simp [dset, hc3]

/-- C10: with debug fields enabled, `map_corpus` renders the outcome into
the debug columns with Python `str`: the success column holds the text
`True` or `False`, and a successfully parsed record's error column holds the
four-character text `None` — the rendering of the absent error — not the
empty string.  (Stated for distinct debug field names and without joining
the inputs back on.) -/
theorem C10_debug_field_renderings (defn : TextCompletionsMappingDefinition)
    (gpt_run : Str → Str) (corpus_fields : List Str)
    (corpus_rows : List (List (Str × Str))) (dflt : Option Str)
    (errF succF rawF : Str) (c' : SchematizedTextCorpus)
    (outs : List TextCompletionsMappingOutput)
    (hne1 : ¬ succF = errF) (hne2 : ¬ succF = rawF) (hne3 : ¬ errF = rawF)
    (hbatch : TextCompletionsMapping.map_batch defn gpt_run corpus_rows dflt =
      Except.ok outs)
    (hmc : TextCompletionsMapping.map_corpus defn gpt_run corpus_fields corpus_rows dflt
      false true errF succF rawF = Except.ok c') :
    c'.examples.length = outs.length ∧
    ∀ (i : Nat) (h : i < c'.examples.length) (ho : i < outs.length),
      dlookup (c'.examples.get ⟨i, h⟩) (some succF) =
        some (pyStrBool (outs.get ⟨i, ho⟩).success) ∧
      (pyStrBool (outs.get ⟨i, ho⟩).success = "True".toList ∨
        pyStrBool (outs.get ⟨i, ho⟩).success = "False".toList) ∧
      dlookup (c'.examples.get ⟨i, h⟩) (some errF) =
        some (pyStrOptStr (outs.get ⟨i, ho⟩).error_message) ∧
      ((outs.get ⟨i, ho⟩).error_message = none →
        dlookup (c'.examples.get ⟨i, h⟩) (some errF) = some ("None".toList) ∧
        ("None".toList : Str).length = 4 ∧ ¬ ("None".toList : Str) = []) := by
  unfold TextCompletionsMapping.map_corpus at hmc
  simp only [Bool.true_and] at hmc
  by_cases hcol : ([errF, succF, rawF].any (fun f => f ∈ defn.input_template.keys) ||
      [errF, succF, rawF].any (fun f => f ∈ defn.output_template.keys)) = true
  · rw [if_pos hcol] at hmc
    simp at hmc
  · rw [if_neg hcol] at hmc
    rw [hbatch] at hmc
    simp only [if_true, Bool.false_eq_true, if_false, Except.ok.injEq] at hmc
    have hexamples : c'.examples =
        outs.map (fun o => exampleAdd o.parsed (debugRecord succF errF rawF o)) := by
      rw [← hmc]
    constructor
    · rw [hexamples, List.length_map]
    · intro i h ho
      have hgeti : c'.examples.get ⟨i, h⟩ =
          exampleAdd (outs.get ⟨i, ho⟩).parsed
            (debugRecord succF errF rawF (outs.get ⟨i, ho⟩)) := by
        simp only [List.get_eq_getElem]
        simp only [hexamples, List.getElem_map]
      rw [hgeti]
      have hshape := debugRecord_shape succF errF rawF (outs.get ⟨i, ho⟩) hne1 hne2 hne3
      have hnodup : ((debugRecord succF errF rawF (outs.get ⟨i, ho⟩)).map Prod.fst).Nodup := by
        rw [hshape]
        simp [hne1, hne2, hne3]
      have hlooks : dlookup (debugRecord succF errF rawF (outs.get ⟨i, ho⟩)) (some succF) =
          some (pyStrBool (outs.get ⟨i, ho⟩).success) := by
        rw [hshape]
        simp [dlookup]
      have hlooke : dlookup (debugRecord succF errF rawF (outs.get ⟨i, ho⟩)) (some errF) =
          some (pyStrOptStr (outs.get ⟨i, ho⟩).error_message) := by
        rw [hshape]
        have hne1s : ¬ (some succF : Option Str) = some errF := by simpa using hne1
        simp [dlookup, hne1s]
      refine ⟨?_, ?_, ?_, ?_⟩
      · exact dlookup_exampleAdd_of_some hnodup hlooks
      · cases (outs.get ⟨i, ho⟩).success <;> simp [pyStrBool]
      · exact dlookup_exampleAdd_of_some hnodup hlooke
      · intro hnone
        refine ⟨?_, by decide, by decide⟩
        have hlooke2 : dlookup (debugRecord succF errF rawF (outs.get ⟨i, ho⟩)) (some errF) =
            some ("None".toList) := by
          rw [hlooke, hnone]
          rfl
        exact dlookup_exampleAdd_of_some hnodup hlooke2

/-- Witness input template for C10. -/
def c10int : TextCompletionsMappingTemplate :=
  pyGetOk (TextCompletionsMappingTemplate.load ([lb] ++ "q".toList ++ [rb]))

/-- Witness output template for C10. -/
def c10outt : TextCompletionsMappingTemplate :=
  pyGetOk (TextCompletionsMappingTemplate.load ("R: ".toList ++ [lb] ++ "ans".toList ++ [rb]))

/-- Witness definition for C10. -/
def c10defn : TextCompletionsMappingDefinition := ⟨"g".toList, c10int, c10outt, [], none⟩

/-- Witness batch outputs for C10. -/
def c10outs : List TextCompletionsMappingOutput :=
  pyGetOk (TextCompletionsMapping.map_batch c10defn (fun _ => "R: ok".toList)
    [[("q".toList, "hi".toList)]] none)

/-- Witness output corpus for C10. -/
def c10c : SchematizedTextCorpus :=
  pyGetOk (TextCompletionsMapping.map_corpus c10defn (fun _ => "R: ok".toList)
    ["q".toList] [[("q".toList, "hi".toList)]] none false true
    "E".toList "S".toList "C".toList)

theorem C10_debug_field_renderings_witness :
    dlookup (c10c.examples.get ⟨0, by decide⟩) (some ("S".toList)) = some ("True".toList) ∧
    dlookup (c10c.examples.get ⟨0, by decide⟩) (some ("E".toList)) = some ("None".toList) := by
  obtain ⟨hlen, hall⟩ := C10_debug_field_renderings c10defn (fun _ => "R: ok".toList)
    ["q".toList] [[("q".toList, "hi".toList)]] none
    "E".toList "S".toList "C".toList c10c c10outs
    (by decide) (by decide) (by decide) (by decide) (by decide)
  obtain ⟨h1, h2, h3, h4⟩ := hall 0 (by decide) (by decide)
  exact ⟨h1.trans (by decide), (h4 (by decide)).1⟩
